import Mathlib

/-!
Verification development for a file-metadata lookup system (C++, `src/mai.cpp`).

The system keeps a hierarchical namespace (directory tree) of file nodes, a
flat identifier-to-record table, and four secondary indexes (extension, size,
owner, creation time), each mapping an attribute value to a sorted posting
list of file identifiers.

Shallow embedding conventions:
* C++ `std::string` is modelled as `List Char` (`Str`), so that the
  character-level path parsing (`getline` on `'/'`) can be translated
  faithfully.
* `std::vector<int> sortedFileIds` is a `List Nat`.
* `std::unordered_map` is an association list with unique keys; iteration
  order of an `unordered_map` is unspecified in C++ and no modelled operation
  depends on it.
* `std::map<long long, ...>` (the size index) is an association list kept
  sorted by key; its in-order iteration and `lower_bound`/`upper_bound` are
  modelled over that sorted list.  `long long` sizes are modelled as `Int`
  (no arithmetic is performed on them, so overflow is irrelevant).
* The directory tree uses `shared_ptr` children and a `weak_ptr` parent.
  Since files are never renamed or moved, a node's parent pointer always
  denotes the node at the path prefix, and a node's `name` equals its key in
  the parent's children map in every reachable state; `removeFile` is
  therefore modelled as path surgery, erasing by the found node's `name`
  exactly as the C++ does.
* Locks are dropped: the claims under verification are all about sequential
  (non-interleaved) executions, where every C++ operation runs to completion.
-/

/-- Model of `std::string`: a list of characters. -/
abbrev Str := List Char

/-- Model of `struct FileMetadata` (`mai.cpp:21`). -/
structure FileMetadata where
  fileId : Nat
  fileName : Str
  extension : Str
  fileSize : Int
  owner : Str
  createTime : Str
  fullPath : Str
deriving DecidableEq, Repr

/-! ## CompressedInvertedList (`mai.cpp:51`)

The C++ keeps a sorted `vector<int>` and uses `lower_bound` (binary search).
On sorted input — which every reachable list is, by construction from the
empty list — binary-search insertion/removal agrees with the linear
recursions below. -/

/-- `CompressedInvertedList::addFileId`: insert preserving sorted order,
no-op if already present. -/
def addFileId : List Nat → Nat → List Nat
  | [], fileId => [fileId]
  | x :: xs, fileId =>
    if fileId < x then fileId :: x :: xs
    else if fileId = x then x :: xs
    else x :: addFileId xs fileId

/-- `CompressedInvertedList::removeFileId`: remove if present (the element
found by `lower_bound`), no-op if absent. -/
def removeFileId : List Nat → Nat → List Nat
  | [], _ => []
  | x :: xs, fileId =>
    if fileId < x then x :: xs
    else if fileId = x then xs
    else x :: removeFileId xs fileId

/-! ## Association-list maps

`unordered_map` keyed by `Str`, `std::map` keyed by `Int`.  `alistGetD m k d`
is `m.find(k)` with default; `alistSet` is `operator[] = v` (replace the
entry if the key is present, otherwise insert); `alistErase` is `erase(k)`. -/

def alistGetD {K α : Type} [DecidableEq K] : List (K × α) → K → α → α
  | [], _, d => d
  | (k', v) :: rest, k, d => if k = k' then v else alistGetD rest k d

def alistLookup {K α : Type} [DecidableEq K] : List (K × α) → K → Option α
  | [], _ => none
  | (k', v) :: rest, k => if k = k' then some v else alistLookup rest k

def alistSet {K α : Type} [DecidableEq K] : List (K × α) → K → α → List (K × α)
  | [], k, v => [(k, v)]
  | (k', v') :: rest, k, v =>
    if k = k' then (k', v) :: rest else (k', v') :: alistSet rest k v

def alistErase {K α : Type} [DecidableEq K] : List (K × α) → K → List (K × α)
  | [], _ => []
  | (k', v') :: rest, k =>
    if k = k' then rest else (k', v') :: alistErase rest k

/-- One step of `InvertedIndex::addFile` on an unordered index:
`index[key].addFileId(fileId)` (`operator[]` creates an empty list if the
key is absent). -/
def umapAdd {K : Type} [DecidableEq K] : List (K × List Nat) → K → Nat → List (K × List Nat)
  | [], k, fileId => [(k, addFileId [] fileId)]
  | (k', l) :: rest, k, fileId =>
    if k = k' then (k', addFileId l fileId) :: rest
    else (k', l) :: umapAdd rest k fileId

/-- One step of `InvertedIndex::addFile` on the ordered size index
(`std::map` keeps keys sorted, so a fresh key is inserted at its sorted
position). -/
def sizeAdd : List (Int × List Nat) → Int → Nat → List (Int × List Nat)
  | [], k, fileId => [(k, addFileId [] fileId)]
  | (k', l) :: rest, k, fileId =>
    if k < k' then (k, addFileId [] fileId) :: (k', l) :: rest
    else if k = k' then (k', addFileId l fileId) :: rest
    else (k', l) :: sizeAdd rest k fileId

/-- One step of `InvertedIndex::removeFile` on an index:
`index[key].removeFileId(fileId); if (index[key].empty()) index.erase(key)`.
When the key is absent, `operator[]` creates an empty list which the
`empty()` check immediately erases again, a net no-op, as here.  Works for
both the unordered indexes and the size index (erasing or updating in place
never disturbs key order). -/
def idxRemove {K : Type} [DecidableEq K] : List (K × List Nat) → K → Nat → List (K × List Nat)
  | [], _, _ => []
  | (k', l) :: rest, k, fileId =>
    if k = k' then
      (if removeFileId l fileId = [] then rest else (k', removeFileId l fileId) :: rest)
    else (k', l) :: idxRemove rest k fileId

/-! ## InvertedIndex (`mai.cpp:89`) -/

structure InvertedIndex where
  extensionIndex : List (Str × List Nat)
  sizeIndex : List (Int × List Nat)
  ownerIndex : List (Str × List Nat)
  timeIndex : List (Str × List Nat)
deriving Repr

/-- `InvertedIndex::addFile` (`mai.cpp:99`). -/
def InvertedIndex.addFile (idx : InvertedIndex) (file : FileMetadata) : InvertedIndex :=
  { extensionIndex := umapAdd idx.extensionIndex file.extension file.fileId
    sizeIndex := sizeAdd idx.sizeIndex file.fileSize file.fileId
    ownerIndex := umapAdd idx.ownerIndex file.owner file.fileId
    timeIndex := umapAdd idx.timeIndex file.createTime file.fileId }

/-- `InvertedIndex::removeFile` (`mai.cpp:108`). -/
def InvertedIndex.removeFile (idx : InvertedIndex) (file : FileMetadata) : InvertedIndex :=
  { extensionIndex := idxRemove idx.extensionIndex file.extension file.fileId
    sizeIndex := idxRemove idx.sizeIndex file.fileSize file.fileId
    ownerIndex := idxRemove idx.ownerIndex file.owner file.fileId
    timeIndex := idxRemove idx.timeIndex file.createTime file.fileId }

/-- `InvertedIndex::queryByExtension` (`mai.cpp:132`): the stored list, or
empty when the extension is unknown. -/
def InvertedIndex.queryByExtension (idx : InvertedIndex) (ext : Str) : List Nat :=
  alistGetD idx.extensionIndex ext []

/-- `InvertedIndex::queryByOwner` (`mai.cpp:157`). -/
def InvertedIndex.queryByOwner (idx : InvertedIndex) (owner : Str) : List Nat :=
  alistGetD idx.ownerIndex owner []

/-- `InvertedIndex::queryByTime` (`mai.cpp:166`). -/
def InvertedIndex.queryByTime (idx : InvertedIndex) (time : Str) : List Nat :=
  alistGetD idx.timeIndex time []

/-- Insertion sort on identifiers; `std::sort` on a `vector<int>` produces
the same (unique) sorted permutation. -/
def sortIds (l : List Nat) : List Nat := List.insertionSort (· ≤ ·) l

/-- `std::unique` followed by `erase`: drop adjacent duplicates. -/
def dedupAdj : List Nat → List Nat
  | [] => []
  | [x] => [x]
  | x :: y :: rest => if x = y then dedupAdj (y :: rest) else x :: dedupAdj (y :: rest)

/-- Model of the iterator loop `for (auto it = lower; it != upper; ++it)` in
`InvertedIndex::queryBySizeRange` (`mai.cpp:147`).  `suffix` is the part of
the (key-sorted) map from the iterator's current position on, `pos` the
current position, `upper` the position of `upper_bound(maxSize)`.  When the
iterator reaches `end()` without having met `upper`, the loop body
dereferences past the end of the map — undefined behavior, modelled as
`none`. -/
def scanIter : List (Int × List Nat) → Nat → Nat → Option (List Nat)
  | [], pos, upper => if pos = upper then some [] else none
  | (_, l) :: rest, pos, upper =>
    if pos = upper then some []
    else (scanIter rest (pos + 1) upper).map (fun r => l ++ r)

/-- Position of `sizeIndex.lower_bound(minSize)`: on a key-sorted map, the
length of the maximal prefix of keys `< minSize`. -/
def lowerBoundPos (m : List (Int × List Nat)) (minSize : Int) : Nat :=
  (m.takeWhile (fun e => decide (e.1 < minSize))).length

/-- Position of `sizeIndex.upper_bound(maxSize)`: the length of the maximal
prefix of keys `≤ maxSize`. -/
def upperBoundPos (m : List (Int × List Nat)) (maxSize : Int) : Nat :=
  (m.takeWhile (fun e => decide (e.1 ≤ maxSize))).length

/-- `InvertedIndex::queryBySizeRange` (`mai.cpp:141`): concatenate the
posting lists between `lower_bound(minSize)` and `upper_bound(maxSize)`,
then sort and deduplicate.  `none` models the undefined behavior of the
iterator walking past the end of the map. -/
def InvertedIndex.queryBySizeRange (idx : InvertedIndex) (minSize maxSize : Int) :
    Option (List Nat) :=
  let lower := lowerBoundPos idx.sizeIndex minSize
  let upper := upperBoundPos idx.sizeIndex maxSize
  (scanIter (idx.sizeIndex.drop lower) lower upper).map (fun r => dedupAdj (sortIds r))

/-! ## The directory tree (`mai.cpp:38`)

`DirectoryNode` owns an `unordered_map<string, shared_ptr<DirectoryNode>>`
of children; the mutual inductive below keeps every definition structurally
recursive (and hence computable by `decide`/`rfl`). -/

mutual
inductive DirectoryNode : Type where
  | mk (name : Str) (isDirectory : Bool) (fileData : Option FileMetadata)
      (children : ChildMap) : DirectoryNode
inductive ChildMap : Type where
  | nil : ChildMap
  | cons (key : Str) (node : DirectoryNode) (rest : ChildMap) : ChildMap
end

def DirectoryNode.name : DirectoryNode → Str
  | .mk n _ _ _ => n

def DirectoryNode.isDirectory : DirectoryNode → Bool
  | .mk _ d _ _ => d

def DirectoryNode.fileData : DirectoryNode → Option FileMetadata
  | .mk _ _ f _ => f

def DirectoryNode.children : DirectoryNode → ChildMap
  | .mk _ _ _ c => c

/-- `children.find(key)` on the children map. -/
def cmLookup : ChildMap → Str → Option DirectoryNode
  | .nil, _ => none
  | .cons k' c rest, k => if k = k' then some c else cmLookup rest k

/-- `children[key] = node`: replace the entry if present, otherwise insert. -/
def cmSet : ChildMap → Str → DirectoryNode → ChildMap
  | .nil, k, v => .cons k v .nil
  | .cons k' c rest, k, v =>
    if k = k' then .cons k' v rest else .cons k' c (cmSet rest k v)

/-- `children.erase(key)`. -/
def cmErase : ChildMap → Str → ChildMap
  | .nil, _ => .nil
  | .cons k' c rest, k => if k = k' then rest else .cons k' c (cmErase rest k)

mutual
/-- The file records reachable from a node, in the visiting order of
`traverseAndFilter` (`mai.cpp:394`): a non-directory node's own record
first, then the children depth-first. -/
def collectFiles : DirectoryNode → List FileMetadata
  | .mk _ isDir fd ch =>
    (match isDir, fd with
     | false, some f => [f]
     | _, _ => []) ++ collectFilesCM ch
def collectFilesCM : ChildMap → List FileMetadata
  | .nil => []
  | .cons _ c rest => collectFiles c ++ collectFilesCM rest
end

/-- Key membership in a children map. -/
def cmHasKey : ChildMap → Str → Bool
  | .nil, _ => false
  | .cons k' _ rest, k => k = k' || cmHasKey rest k

mutual
/-- Structural well-formedness that every reachable tree enjoys: children
keys are distinct (an `unordered_map` has unique keys) and each child's
`name` equals its key in the parent's map (nodes are only ever created and
inserted under their own name, and never renamed). -/
def treeWf : DirectoryNode → Bool
  | .mk _ _ _ ch => treeWfCM ch
def treeWfCM : ChildMap → Bool
  | .nil => true
  | .cons k c rest => c.name = k && !(cmHasKey rest k) && treeWf c && treeWfCM rest
end

/-- Walk a list of path segments from a node, never creating anything
(the loop of `findFileNode`, `mai.cpp:381`). -/
def findNodeSegs : DirectoryNode → List Str → Option DirectoryNode
  | node, [] => some node
  | node, seg :: rest =>
    match cmLookup node.children seg with
    | none => none
    | some c => findNodeSegs c rest

/-- The walk of `getOrCreatePath` (`mai.cpp:358`) followed by the attachment
`pathNode->children[fileName] = fileNode` of `addFile` (`mai.cpp:229`):
descend along `segs`, creating missing intermediate directory nodes, and
set `children[name] = child` at the final node.  As in the C++, the walk
descends into an existing child whatever its kind. -/
def ensureAttach : DirectoryNode → List Str → Str → DirectoryNode → DirectoryNode
  | node, [], name, child =>
    .mk node.name node.isDirectory node.fileData (cmSet node.children name child)
  | node, seg :: rest, name, child =>
    let sub := match cmLookup node.children seg with
      | some c => c
      | none => .mk seg true none .nil
    .mk node.name node.isDirectory node.fileData
      (cmSet node.children seg (ensureAttach sub rest name child))

/-- `parent->children.erase(fileNode->name)` (`mai.cpp:252`): walk to the
parent of the removed node (the node at the path prefix, which is what the
`weak_ptr` parent back-reference resolves to) and erase the child under the
removed node's own name. -/
def detachNode : DirectoryNode → List Str → Str → DirectoryNode
  | p, [], nodeName =>
    .mk p.name p.isDirectory p.fileData (cmErase p.children nodeName)
  | p, seg :: rest, nodeName =>
    match cmLookup p.children seg with
    | none => p
    | some c =>
      .mk p.name p.isDirectory p.fileData
        (cmSet p.children seg (detachNode c rest nodeName))

/-! ## Path parsing (`mai.cpp:355`)

`getOrCreatePath`/`findFileNode` feed `path.substr(1)` to a
`stringstream` and repeatedly call `getline(ss, part, '/')`, skipping empty
parts.  `splitSegs` is `getline` iterated to end-of-stream: it consumes a
trailing delimiter without yielding a final empty segment (a `getline` call
on an exhausted stream fails). -/

def splitSegs : Str → List Str
  | [] => []
  | c :: rest =>
    if c = '/' then [] :: splitSegs rest
    else
      match splitSegs rest with
      | [] => [[c]]
      | s :: ss => (c :: s) :: ss

/-- Splitting that also yields the final (possibly empty) segment; used only
to state structural lemmas about `splitSegs`. -/
def splitAll : Str → List Str
  | [] => [[]]
  | c :: rest =>
    if c = '/' then [] :: splitAll rest
    else
      match splitAll rest with
      | [] => [[c]]
      | s :: ss => (c :: s) :: ss

/-- The nonempty segments of a path: drop the leading character (`substr(1)`),
split on `'/'`, and skip empty parts (`if (part.empty()) continue`). -/
def pathSegs (path : Str) : List Str :=
  (splitSegs (path.drop 1)).filter (fun t => t ≠ [])

/-! ## FileSystemSimulator (`mai.cpp:197`) -/

structure FileSystemSimulator where
  root : DirectoryNode
  fileMetadataMap : List (Nat × FileMetadata)
  invertedIndex : InvertedIndex
  nextFileId : Nat

/-- The constructor (`mai.cpp:207`): an empty directory root named `"/"`,
empty table and indexes, `nextFileId = 1`. -/
def initSimulator : FileSystemSimulator :=
  { root := .mk ['/'] true none .nil
    fileMetadataMap := []
    invertedIndex := ⟨[], [], [], []⟩
    nextFileId := 1 }

/-- `FileSystemSimulator::findFileNode` (`mai.cpp:372`): reject paths that
are empty or do not start with `'/'`, then walk the segments.  (The C++
special-cases `fullPath == "/"`, which the general walk reproduces: the
segment list of `"/"` is empty.) -/
def FileSystemSimulator.findFileNode (s : FileSystemSimulator) (fullPath : Str) :
    Option DirectoryNode :=
  match fullPath with
  | [] => none
  | c :: _ =>
    if c = '/' then findNodeSegs s.root (pathSegs fullPath) else none

/-- `FileSystemSimulator::addFile` (`mai.cpp:212`): validate the path
(`getOrCreatePath` returns null exactly for an empty path or one not
starting with `'/'`, before creating anything), allocate `nextFileId++`,
build the full path with a conditional separator, attach the file node and
register the record in the table and all four indexes. -/
def FileSystemSimulator.addFile (s : FileSystemSimulator)
    (path fileName extension : Str) (fileSize : Int) (owner createTime : Str) :
    Bool × FileSystemSimulator :=
  match path with
  | [] => (false, s)
  | c :: _ =>
    if c = '/' then
      let fileId := s.nextFileId
      let fullPath := path ++ (if path.getLast? = some '/' then [] else ['/']) ++ fileName
      let fileData : FileMetadata :=
        ⟨fileId, fileName, extension, fileSize, owner, createTime, fullPath⟩
      let fileNode : DirectoryNode := .mk fileName false (some fileData) .nil
      (true,
        { root := ensureAttach s.root (pathSegs path) fileName fileNode
          fileMetadataMap := alistSet s.fileMetadataMap fileId fileData
          invertedIndex := s.invertedIndex.addFile fileData
          nextFileId := fileId + 1 })
    else (false, s)

/-- `FileSystemSimulator::removeFile` (`mai.cpp:239`): resolve the path;
fail on a missing node or a directory; otherwise deregister the record from
the indexes, erase it from the flat table, and detach the node from its
parent (no parent to detach from when the resolved node is the root, whose
`weak_ptr` parent is empty). -/
def FileSystemSimulator.removeFile (s : FileSystemSimulator) (fullPath : Str) :
    Bool × FileSystemSimulator :=
  match s.findFileNode fullPath with
  | none => (false, s)
  | some node =>
    if node.isDirectory then (false, s)
    else
      let s' := match node.fileData with
        | some fd =>
          { s with invertedIndex := s.invertedIndex.removeFile fd
                   fileMetadataMap := alistErase s.fileMetadataMap fd.fileId }
        | none => s
      match pathSegs fullPath with
      | [] => (true, s')
      | _ :: _ =>
        (true, { s' with root := detachNode s'.root (pathSegs fullPath).dropLast node.name })

/-- Resolve identifiers through the flat table, silently dropping
identifiers the table no longer holds (the loop of the indexed queries,
`mai.cpp:277`). -/
def resolveIds (table : List (Nat × FileMetadata)) (ids : List Nat) : List FileMetadata :=
  ids.filterMap (fun fileId => alistLookup table fileId)

/-- `FileSystemSimulator::queryByExtensionTraditional` (`mai.cpp:260`):
depth-first traversal collecting the records whose extension matches. -/
def FileSystemSimulator.queryByExtensionTraditional (s : FileSystemSimulator) (ext : Str) :
    List FileMetadata :=
  (collectFiles s.root).filter (fun f => f.extension = ext)

/-- `FileSystemSimulator::queryByExtensionIndexed` (`mai.cpp:272`). -/
def FileSystemSimulator.queryByExtensionIndexed (s : FileSystemSimulator) (ext : Str) :
    List FileMetadata :=
  resolveIds s.fileMetadataMap (s.invertedIndex.queryByExtension ext)

/-- `FileSystemSimulator::queryByOwnerIndexed` (`mai.cpp:300`). -/
def FileSystemSimulator.queryByOwnerIndexed (s : FileSystemSimulator) (owner : Str) :
    List FileMetadata :=
  resolveIds s.fileMetadataMap (s.invertedIndex.queryByOwner owner)

/-- `FileSystemSimulator::queryBySizeRangeIndexed` (`mai.cpp:286`); `none`
propagates the undefined behavior of the underlying scan. -/
def FileSystemSimulator.queryBySizeRangeIndexed (s : FileSystemSimulator)
    (minSize maxSize : Int) : Option (List FileMetadata) :=
  (s.invertedIndex.queryBySizeRange minSize maxSize).map (resolveIds s.fileMetadataMap)

/-- `FileSystemSimulator::getTotalFiles` (`mai.cpp:343`). -/
def FileSystemSimulator.getTotalFiles (s : FileSystemSimulator) : Nat :=
  s.fileMetadataMap.length

/-! ## Operation sequences -/

/-- A store operation: one `addFile` or `removeFile` call. -/
inductive FsOp where
  | add (path fileName extension : Str) (fileSize : Int) (owner createTime : Str) : FsOp
  | remove (fullPath : Str) : FsOp

def applyOp (s : FileSystemSimulator) : FsOp → FileSystemSimulator
  | .add p n e sz o t => (s.addFile p n e sz o t).2
  | .remove p => (s.removeFile p).2

def applyOpsFrom (s : FileSystemSimulator) : List FsOp → FileSystemSimulator
  | [] => s
  | op :: rest => applyOpsFrom (applyOp s op) rest

/-- The store after running a sequence of operations on a fresh simulator. -/
def reach (ops : List FsOp) : FileSystemSimulator :=
  applyOpsFrom initSimulator ops

/-- The identifiers handed out by the successful `addFile` calls of a run, in
order (`int fileId = nextFileId++`, `mai.cpp:219`). -/
def runIds (s : FileSystemSimulator) : List FsOp → List Nat
  | [] => []
  | op :: rest =>
    (match op with
     | .add p n e sz o t => if (s.addFile p n e sz o t).1 then [s.nextFileId] else []
     | .remove _ => []) ++ runIds (applyOp s op) rest

/-! ## Safety side conditions for the baseline-equivalence claim

`addFile` overwrites an existing child of the same name without removing the
old record from the table or the indexes, and `removeFile` drops the whole
subtree of the removed node.  The following run conditions exclude exactly
those situations. -/

/-- An `addFile` call is overwrite-free when the path is invalid (the call
is a no-op) or no node exists yet at `pathSegs path ++ [fileName]`. -/
def addSafe (s : FileSystemSimulator) (path fileName : Str) : Bool :=
  match path with
  | [] => true
  | c :: _ =>
    if c = '/' then (findNodeSegs s.root (pathSegs path ++ [fileName])).isNone
    else true

/-- A `removeFile` call is subtree-safe when it is a no-op (unresolved path
or directory target) or the removed file node has no children. -/
def removeSafe (s : FileSystemSimulator) (fullPath : Str) : Bool :=
  match s.findFileNode fullPath with
  | none => true
  | some node =>
    node.isDirectory ||
      (match node.children with
       | .nil => true
       | .cons _ _ _ => false)

def opSafe (s : FileSystemSimulator) : FsOp → Bool
  | .add p n _ _ _ _ => addSafe s p n
  | .remove p => removeSafe s p

/-- Every operation of the run is overwrite-free and subtree-safe in the
state in which it executes. -/
def safeRunFrom (s : FileSystemSimulator) : List FsOp → Bool
  | [] => true
  | op :: rest => opSafe s op && safeRunFrom (applyOp s op) rest

/-! ## Posting-list lemmas -/

theorem mem_addFileId {l : List Nat} {i x : Nat} :
    x ∈ addFileId l i ↔ x = i ∨ x ∈ l := by
  induction l with
  | nil => simp [addFileId]
  | cons a as ih =>
    by_cases h1 : i < a
    · simp [addFileId, if_pos h1]
    · by_cases h2 : i = a
      · simp only [addFileId, if_neg h1, if_pos h2, List.mem_cons]
        constructor
        · intro h; exact Or.inr h
        · rintro (rfl | h)
          · exact Or.inl h2
          · exact h
      · simp only [addFileId, if_neg h1, if_neg h2, List.mem_cons, ih]
        tauto

theorem addFileId_ne_nil {l : List Nat} {i : Nat} : addFileId l i ≠ [] :=
  List.ne_nil_of_mem (mem_addFileId.mpr (Or.inl rfl))

theorem pairwise_addFileId {l : List Nat} {i : Nat}
    (h : l.Pairwise (· < ·)) : (addFileId l i).Pairwise (· < ·) := by
  induction l with
  | nil => simp [addFileId]
  | cons a as ih =>
    rw [List.pairwise_cons] at h
    obtain ⟨ha, has⟩ := h
    by_cases h1 : i < a
    · rw [addFileId]
      simp only [if_pos h1]
      refine List.Pairwise.cons ?_ (List.Pairwise.cons ha has)
      intro y hy
      rw [List.mem_cons] at hy
      rcases hy with rfl | hy
      · exact h1
      · exact lt_trans h1 (ha y hy)
    · by_cases h2 : i = a
      · rw [addFileId]
        simp only [if_neg h1, if_pos h2]
        exact List.Pairwise.cons ha has
      · have hai : a < i := by omega
        rw [addFileId]
        simp only [if_neg h1, if_neg h2]
        refine List.Pairwise.cons ?_ (ih has)
        intro y hy
        rcases mem_addFileId.mp hy with rfl | hy
        · exact hai
        · exact ha y hy

theorem removeFileId_sublist {l : List Nat} {i : Nat} :
    List.Sublist (removeFileId l i) l := by
  induction l with
  | nil => simp [removeFileId]
  | cons a as ih =>
    by_cases h1 : i < a
    · simp [removeFileId, h1]
    · by_cases h2 : i = a
      · simp only [removeFileId, if_neg h1, if_pos h2]
        exact List.sublist_cons_self a as
      · simp only [removeFileId, if_neg h1, if_neg h2]
        exact List.Sublist.cons₂ a ih

theorem pairwise_removeFileId {l : List Nat} {i : Nat}
    (h : l.Pairwise (· < ·)) : (removeFileId l i).Pairwise (· < ·) :=
  h.sublist removeFileId_sublist

theorem mem_removeFileId {l : List Nat} {i x : Nat} (hs : l.Pairwise (· < ·)) :
    x ∈ removeFileId l i ↔ x ∈ l ∧ x ≠ i := by
  induction l with
  | nil => simp [removeFileId]
  | cons a as ih =>
    rw [List.pairwise_cons] at hs
    obtain ⟨ha, has⟩ := hs
    by_cases h1 : i < a
    · have hni : ∀ y, y ∈ a :: as → y ≠ i := by
        intro y hy
        rw [List.mem_cons] at hy
        rcases hy with rfl | hy
        · omega
        · have := ha y hy; omega
      simp only [removeFileId, if_pos h1]
      constructor
      · intro hx; exact ⟨hx, hni x hx⟩
      · intro hx; exact hx.1
    · by_cases h2 : i = a
      · have hnotin : i ∉ as := by
          intro hmem
          have := ha i hmem; omega
        simp only [removeFileId, if_neg h1, if_pos h2, List.mem_cons]
        subst h2
        constructor
        · intro hx
          exact ⟨Or.inr hx, fun heq => hnotin (heq ▸ hx)⟩
        · rintro ⟨rfl | hx, hne⟩
          · exact absurd rfl hne
          · exact hx
      · simp only [removeFileId, if_neg h1, if_neg h2, List.mem_cons, ih has]
        constructor
        · rintro (rfl | ⟨hx, hne⟩)
          · exact ⟨Or.inl rfl, fun h => h2 h.symm⟩
          · exact ⟨Or.inr hx, hne⟩
        · rintro ⟨rfl | hx, hne⟩
          · exact Or.inl rfl
          · exact Or.inr ⟨hx, hne⟩

theorem addFileId_of_mem {l : List Nat} {i : Nat} (hs : l.Pairwise (· < ·))
    (h : i ∈ l) : addFileId l i = l := by
  induction l with
  | nil => cases h
  | cons a as ih =>
    rw [List.pairwise_cons] at hs
    obtain ⟨ha, has⟩ := hs
    rw [List.mem_cons] at h
    rcases h with rfl | h
    · simp [addFileId]
    · have hai : a < i := ha i h
      have h1 : ¬ i < a := by omega
      have h2 : i ≠ a := by omega
      simp [addFileId, h1, h2, ih has h]

theorem removeFileId_of_not_mem {l : List Nat} {i : Nat} (hs : l.Pairwise (· < ·))
    (h : i ∉ l) : removeFileId l i = l := by
  induction l with
  | nil => simp [removeFileId]
  | cons a as ih =>
    rw [List.pairwise_cons] at hs
    obtain ⟨ha, has⟩ := hs
    by_cases h1 : i < a
    · simp [removeFileId, h1]
    · have h2 : i ≠ a := fun heq => h (heq ▸ List.mem_cons_self a as)
      have h3 : i ∉ as := fun hmem => h (List.mem_cons_of_mem a hmem)
      simp [removeFileId, h1, h2, ih has h3]

/-! ## Association-list lemmas -/

theorem alistGetD_eq_default_of_not_mem_keys {K α : Type} [DecidableEq K]
    {m : List (K × α)} {k : K} {d : α} (h : k ∉ m.map Prod.fst) :
    alistGetD m k d = d := by
  induction m with
  | nil => rfl
  | cons e rest ih =>
    obtain ⟨k', v⟩ := e
    simp only [List.map_cons, List.mem_cons] at h
    push_neg at h
    simp only [alistGetD, if_neg h.1]
    exact ih h.2

theorem mem_alistGetD {K : Type} [DecidableEq K]
    {m : List (K × List Nat)} {k : K} {x : Nat} (h : x ∈ alistGetD m k []) :
    ∃ l, (k, l) ∈ m ∧ x ∈ l := by
  induction m with
  | nil => cases h
  | cons e rest ih =>
    obtain ⟨k', v⟩ := e
    by_cases hk : k = k'
    · subst hk
      simp only [alistGetD, if_pos rfl] at h
      exact ⟨v, List.mem_cons_self _ _, h⟩
    · simp only [alistGetD, if_neg hk] at h
      obtain ⟨l, hl, hx⟩ := ih h
      exact ⟨l, List.mem_cons_of_mem _ hl, hx⟩

theorem alistGetD_of_mem {K : Type} [DecidableEq K]
    {m : List (K × List Nat)} {k : K} {l : List Nat}
    (hn : (m.map Prod.fst).Nodup) (h : (k, l) ∈ m) :
    alistGetD m k [] = l := by
  induction m with
  | nil => cases h
  | cons e rest ih =>
    obtain ⟨k', v⟩ := e
    simp only [List.map_cons, List.nodup_cons] at hn
    rw [List.mem_cons] at h
    rcases h with h | h
    · rw [Prod.mk.injEq] at h
      obtain ⟨h1, h2⟩ := h
      subst h1; subst h2
      simp [alistGetD]
    · have hk : k ≠ k' := by
        intro heq; subst heq
        exact hn.1 (List.mem_map_of_mem Prod.fst h)
      simp only [alistGetD, if_neg hk]
      exact ih hn.2 h

theorem alistLookup_eq_some_of_mem {K α : Type} [DecidableEq K]
    {m : List (K × α)} {k : K} {v : α}
    (hn : (m.map Prod.fst).Nodup) (h : (k, v) ∈ m) :
    alistLookup m k = some v := by
  induction m with
  | nil => cases h
  | cons e rest ih =>
    obtain ⟨k', v'⟩ := e
    simp only [List.map_cons, List.nodup_cons] at hn
    rw [List.mem_cons] at h
    rcases h with h | h
    · rw [Prod.mk.injEq] at h
      obtain ⟨h1, h2⟩ := h
      subst h1; subst h2
      simp [alistLookup]
    · have hk : k ≠ k' := by
        intro heq; subst heq
        exact hn.1 (List.mem_map_of_mem Prod.fst h)
      simp only [alistLookup, if_neg hk]
      exact ih hn.2 h

theorem mem_of_alistLookup_eq_some {K α : Type} [DecidableEq K]
    {m : List (K × α)} {k : K} {v : α} (h : alistLookup m k = some v) :
    (k, v) ∈ m := by
  induction m with
  | nil => cases h
  | cons e rest ih =>
    obtain ⟨k', v'⟩ := e
    by_cases hk : k = k'
    · subst hk
      simp [alistLookup] at h
      subst h
      exact List.mem_cons_self _ _
    · simp only [alistLookup, if_neg hk] at h
      exact List.mem_cons_of_mem _ (ih h)

theorem alistLookup_eq_none_of_not_mem_keys {K α : Type} [DecidableEq K]
    {m : List (K × α)} {k : K} (h : k ∉ m.map Prod.fst) :
    alistLookup m k = none := by
  induction m with
  | nil => rfl
  | cons e rest ih =>
    obtain ⟨k', v⟩ := e
    simp only [List.map_cons, List.mem_cons] at h
    push_neg at h
    simp only [alistLookup, if_neg h.1]
    exact ih h.2

theorem mem_alistSet {K α : Type} [DecidableEq K]
    {m : List (K × α)} {k : K} {v : α} {e : K × α} (h : e ∈ alistSet m k v) :
    e ∈ m ∨ e = (k, v) := by
  induction m with
  | nil =>
    simp only [alistSet, List.mem_singleton] at h
    exact Or.inr h
  | cons e' rest ih =>
    obtain ⟨k', v'⟩ := e'
    by_cases hk : k = k'
    · subst hk
      simp [alistSet] at h
      rcases h with h2 | h2
      · exact Or.inr h2
      · exact Or.inl (List.mem_cons_of_mem _ h2)
    · simp only [alistSet, if_neg hk, List.mem_cons] at h
      rcases h with rfl | h
      · exact Or.inl (List.mem_cons_self _ _)
      · rcases ih h with h | h
        · exact Or.inl (List.mem_cons_of_mem _ h)
        · exact Or.inr h

theorem alistSet_of_not_mem_keys {K α : Type} [DecidableEq K]
    {m : List (K × α)} {k : K} {v : α} (h : k ∉ m.map Prod.fst) :
    alistSet m k v = m ++ [(k, v)] := by
  induction m with
  | nil => rfl
  | cons e rest ih =>
    obtain ⟨k', v'⟩ := e
    simp only [List.map_cons, List.mem_cons] at h
    push_neg at h
    simp only [alistSet, if_neg h.1, List.cons_append, List.cons.injEq, true_and]
    exact ih h.2

theorem alistLookup_alistSet {K α : Type} [DecidableEq K]
    (m : List (K × α)) (k k' : K) (v : α) :
    alistLookup (alistSet m k v) k' =
      if k' = k then some v else alistLookup m k' := by
  induction m with
  | nil =>
    by_cases h : k' = k
    · simp [alistSet, alistLookup, h]
    · simp [alistSet, alistLookup, h]
  | cons e rest ih =>
    obtain ⟨k₀, v₀⟩ := e
    by_cases h0 : k = k₀
    · subst h0
      by_cases h : k' = k
      · simp [alistSet, alistLookup, h]
      · simp [alistSet, alistLookup, h]
    · by_cases h : k' = k₀
      · subst h
        have : k' ≠ k := fun heq => h0 heq.symm
        simp [alistSet, if_neg h0, alistLookup, this]
      · simp [alistSet, if_neg h0, alistLookup, h, ih]

theorem mem_of_mem_alistErase {K α : Type} [DecidableEq K]
    {m : List (K × α)} {k : K} {e : K × α} (h : e ∈ alistErase m k) : e ∈ m := by
  induction m with
  | nil => cases h
  | cons e' rest ih =>
    obtain ⟨k', v'⟩ := e'
    by_cases hk : k = k'
    · simp only [alistErase, if_pos hk] at h
      exact List.mem_cons_of_mem _ h
    · simp only [alistErase, if_neg hk, List.mem_cons] at h
      rcases h with rfl | h
      · exact List.mem_cons_self _ _
      · exact List.mem_cons_of_mem _ (ih h)

theorem mem_alistErase_of_ne {K α : Type} [DecidableEq K]
    {m : List (K × α)} {k : K} {e : K × α} (he : e ∈ m) (hne : e.1 ≠ k) :
    e ∈ alistErase m k := by
  induction m with
  | nil => cases he
  | cons e' rest ih =>
    obtain ⟨k', v'⟩ := e'
    rw [List.mem_cons] at he
    by_cases hk : k = k'
    · subst hk
      simp only [alistErase, if_pos rfl]
      rcases he with rfl | he
      · exact absurd rfl hne
      · exact he
    · simp only [alistErase, if_neg hk, List.mem_cons]
      rcases he with rfl | he
      · exact Or.inl rfl
      · exact Or.inr (ih he)

theorem alistErase_keys_sublist {K α : Type} [DecidableEq K]
    (m : List (K × α)) (k : K) :
    List.Sublist ((alistErase m k).map Prod.fst) (m.map Prod.fst) := by
  induction m with
  | nil => simp [alistErase]
  | cons e rest ih =>
    obtain ⟨k', v'⟩ := e
    by_cases hk : k = k'
    · simp only [alistErase, if_pos hk, List.map_cons]
      exact List.sublist_cons_of_sublist _ (List.Sublist.refl _)
    · simp only [alistErase, if_neg hk, List.map_cons]
      exact List.Sublist.cons₂ _ ih

theorem not_mem_keys_alistErase {K α : Type} [DecidableEq K]
    {m : List (K × α)} {k : K} (hn : (m.map Prod.fst).Nodup) :
    k ∉ (alistErase m k).map Prod.fst := by
  induction m with
  | nil => simp [alistErase]
  | cons e rest ih =>
    obtain ⟨k', v'⟩ := e
    simp only [List.map_cons, List.nodup_cons] at hn
    by_cases hk : k = k'
    · subst hk
      simp only [alistErase, if_pos rfl]
      exact hn.1
    · simp only [alistErase, if_neg hk, List.map_cons, List.mem_cons]
      push_neg
      exact ⟨hk, ih hn.2⟩

theorem alistErase_perm {K α : Type} [DecidableEq K]
    {m : List (K × α)} {k : K} {v : α}
    (hn : (m.map Prod.fst).Nodup) (h : (k, v) ∈ m) :
    m.Perm ((k, v) :: alistErase m k) := by
  induction m with
  | nil => cases h
  | cons e rest ih =>
    obtain ⟨k', v'⟩ := e
    simp only [List.map_cons, List.nodup_cons] at hn
    rw [List.mem_cons] at h
    rcases h with h | h
    · rw [Prod.mk.injEq] at h
      obtain ⟨h1, h2⟩ := h
      subst h1; subst h2
      simp [alistErase]
    · have hk : k ≠ k' := by
        intro heq; subst heq
        exact hn.1 (List.mem_map_of_mem Prod.fst h)
      simp only [alistErase, if_neg hk]
      exact ((ih hn.2 h).cons _).trans (List.Perm.swap _ _ _)

/-! ## Index-map operation lemmas -/

@[simp] theorem alistGetD_nil {K α : Type} [DecidableEq K] (k : K) (d : α) :
    alistGetD [] k d = d := rfl

@[simp] theorem alistGetD_cons {K α : Type} [DecidableEq K]
    (k₀ : K) (v : α) (rest : List (K × α)) (k : K) (d : α) :
    alistGetD ((k₀, v) :: rest) k d = if k = k₀ then v else alistGetD rest k d := rfl

theorem umapAdd_nil {K : Type} [DecidableEq K] (k : K) (i : Nat) :
    umapAdd [] k i = [(k, addFileId [] i)] := rfl

theorem umapAdd_cons {K : Type} [DecidableEq K]
    (k₀ : K) (l₀ : List Nat) (rest : List (K × List Nat)) (k : K) (i : Nat) :
    umapAdd ((k₀, l₀) :: rest) k i =
      if k = k₀ then (k₀, addFileId l₀ i) :: rest
      else (k₀, l₀) :: umapAdd rest k i := rfl

theorem sizeAdd_nil (k : Int) (i : Nat) :
    sizeAdd [] k i = [(k, addFileId [] i)] := rfl

theorem sizeAdd_cons (k₀ : Int) (l₀ : List Nat) (rest : List (Int × List Nat))
    (k : Int) (i : Nat) :
    sizeAdd ((k₀, l₀) :: rest) k i =
      if k < k₀ then (k, addFileId [] i) :: (k₀, l₀) :: rest
      else if k = k₀ then (k₀, addFileId l₀ i) :: rest
      else (k₀, l₀) :: sizeAdd rest k i := rfl

theorem idxRemove_nil {K : Type} [DecidableEq K] (k : K) (i : Nat) :
    idxRemove ([] : List (K × List Nat)) k i = [] := rfl

theorem idxRemove_cons {K : Type} [DecidableEq K]
    (k₀ : K) (l₀ : List Nat) (rest : List (K × List Nat)) (k : K) (i : Nat) :
    idxRemove ((k₀, l₀) :: rest) k i =
      if k = k₀ then
        (if removeFileId l₀ i = [] then rest else (k₀, removeFileId l₀ i) :: rest)
      else (k₀, l₀) :: idxRemove rest k i := rfl

theorem alistGetD_umapAdd {K : Type} [DecidableEq K]
    (m : List (K × List Nat)) (k : K) (i : Nat) (k' : K) :
    alistGetD (umapAdd m k i) k' [] =
      if k' = k then addFileId (alistGetD m k []) i else alistGetD m k' [] := by
  induction m with
  | nil => simp only [umapAdd_nil, alistGetD_cons, alistGetD_nil]
  | cons e rest ih =>
    obtain ⟨k₀, l₀⟩ := e
    rw [umapAdd_cons]
    by_cases h0 : k = k₀
    · rw [if_pos h0, alistGetD_cons, alistGetD_cons, alistGetD_cons, if_pos h0]
      by_cases h : k' = k₀
      · have hk : k' = k := h.trans h0.symm
        rw [if_pos hk, if_pos h]
      · have hk : k' ≠ k := fun he => h (he.trans h0)
        rw [if_neg hk, if_neg h, if_neg h]
    · rw [if_neg h0, alistGetD_cons, alistGetD_cons, alistGetD_cons, if_neg h0]
      by_cases h : k' = k₀
      · have hk : k' ≠ k := fun he => h0 (he.symm.trans h)
        rw [if_pos h, if_neg hk, if_pos h]
      · rw [if_neg h, if_neg h, ih]

theorem mem_umapAdd {K : Type} [DecidableEq K]
    {m : List (K × List Nat)} {k : K} {i : Nat} {e : K × List Nat}
    (h : e ∈ umapAdd m k i) :
    e ∈ m ∨ (e.1 = k ∧ e.2 = addFileId (alistGetD m k []) i) := by
  induction m with
  | nil =>
    rw [umapAdd_nil, List.mem_singleton] at h
    rw [h]
    exact Or.inr ⟨rfl, rfl⟩
  | cons e' rest ih =>
    obtain ⟨k₀, l₀⟩ := e'
    rw [umapAdd_cons] at h
    by_cases h0 : k = k₀
    · rw [if_pos h0, List.mem_cons] at h
      rcases h with h2 | h2
      · refine Or.inr ⟨?_, ?_⟩
        · rw [h2]; exact h0.symm
        · rw [h2, alistGetD_cons, if_pos h0]
      · exact Or.inl (List.mem_cons_of_mem _ h2)
    · rw [if_neg h0, List.mem_cons] at h
      rcases h with h2 | h2
      · rw [h2]; exact Or.inl (List.mem_cons_self _ _)
      · rcases ih h2 with h3 | h3
        · exact Or.inl (List.mem_cons_of_mem _ h3)
        · refine Or.inr ⟨h3.1, ?_⟩
          rw [h3.2, alistGetD_cons, if_neg h0]

theorem mem_keys_umapAdd {K : Type} [DecidableEq K]
    {m : List (K × List Nat)} {k : K} {i : Nat} {x : K}
    (h : x ∈ (umapAdd m k i).map Prod.fst) : x = k ∨ x ∈ m.map Prod.fst := by
  rw [List.mem_map] at h
  obtain ⟨e2, he2, hfst⟩ := h
  rcases mem_umapAdd he2 with h3 | h3
  · exact Or.inr (hfst ▸ List.mem_map_of_mem Prod.fst h3)
  · exact Or.inl (hfst ▸ h3.1)

theorem umapAdd_keys_nodup {K : Type} [DecidableEq K]
    {m : List (K × List Nat)} {k : K} {i : Nat}
    (hn : (m.map Prod.fst).Nodup) : ((umapAdd m k i).map Prod.fst).Nodup := by
  induction m with
  | nil => simp [umapAdd_nil]
  | cons e rest ih =>
    obtain ⟨k₀, l₀⟩ := e
    simp only [List.map_cons, List.nodup_cons] at hn
    rw [umapAdd_cons]
    by_cases h0 : k = k₀
    · rw [if_pos h0]
      simp only [List.map_cons, List.nodup_cons]
      exact ⟨hn.1, hn.2⟩
    · rw [if_neg h0]
      simp only [List.map_cons, List.nodup_cons]
      refine ⟨?_, ih hn.2⟩
      intro hmem
      rcases mem_keys_umapAdd hmem with h3 | h3
      · exact h0 h3.symm
      · exact hn.1 h3

theorem mem_keys_sizeAdd {m : List (Int × List Nat)} {k : Int} {i : Nat} {x : Int} :
    x ∈ (sizeAdd m k i).map Prod.fst ↔ x = k ∨ x ∈ m.map Prod.fst := by
  induction m with
  | nil => simp [sizeAdd_nil]
  | cons e rest ih =>
    obtain ⟨k₀, l₀⟩ := e
    rw [sizeAdd_cons]
    by_cases h1 : k < k₀
    · rw [if_pos h1]
      simp only [List.map_cons, List.mem_cons]
    · rw [if_neg h1]
      by_cases h2 : k = k₀
      · rw [if_pos h2]
        simp only [List.map_cons, List.mem_cons]
        constructor
        · intro hx; rcases hx with rfl | hx
          · exact Or.inr (Or.inl rfl)
          · exact Or.inr (Or.inr hx)
        · intro hx; rcases hx with rfl | rfl | hx
          · exact Or.inl h2
          · exact Or.inl rfl
          · exact Or.inr hx
      · rw [if_neg h2]
        simp only [List.map_cons, List.mem_cons, ih]
        tauto

theorem sizeAdd_keys_pairwise {m : List (Int × List Nat)} {k : Int} {i : Nat}
    (hs : (m.map Prod.fst).Pairwise (· < ·)) :
    ((sizeAdd m k i).map Prod.fst).Pairwise (· < ·) := by
  induction m with
  | nil => simp [sizeAdd_nil]
  | cons e rest ih =>
    obtain ⟨k₀, l₀⟩ := e
    simp only [List.map_cons, List.pairwise_cons] at hs
    obtain ⟨hk₀, hrest⟩ := hs
    rw [sizeAdd_cons]
    by_cases h1 : k < k₀
    · rw [if_pos h1]
      simp only [List.map_cons, List.pairwise_cons]
      refine ⟨?_, hk₀, hrest⟩
      intro y hy
      rw [List.mem_cons] at hy
      rcases hy with rfl | hy
      · exact h1
      · exact lt_trans h1 (hk₀ y hy)
    · rw [if_neg h1]
      by_cases h2 : k = k₀
      · rw [if_pos h2]
        simp only [List.map_cons, List.pairwise_cons]
        exact ⟨hk₀, hrest⟩
      · have hgt : k₀ < k := by omega
        rw [if_neg h2]
        simp only [List.map_cons, List.pairwise_cons]
        refine ⟨?_, ih hrest⟩
        intro y hy
        rcases mem_keys_sizeAdd.mp hy with rfl | hy
        · exact hgt
        · exact hk₀ y hy

theorem alistGetD_sizeAdd {m : List (Int × List Nat)} {k : Int} {i : Nat}
    (hs : (m.map Prod.fst).Pairwise (· < ·)) (k' : Int) :
    alistGetD (sizeAdd m k i) k' [] =
      if k' = k then addFileId (alistGetD m k []) i else alistGetD m k' [] := by
  induction m with
  | nil => simp only [sizeAdd_nil, alistGetD_cons, alistGetD_nil]
  | cons e rest ih =>
    obtain ⟨k₀, l₀⟩ := e
    simp only [List.map_cons, List.pairwise_cons] at hs
    obtain ⟨hk₀, hrest⟩ := hs
    rw [sizeAdd_cons]
    by_cases h1 : k < k₀
    · have hne : k ≠ k₀ := by omega
      have hnotin : k ∉ rest.map Prod.fst := by
        intro hmem
        have := hk₀ k hmem; omega
      rw [if_pos h1, alistGetD_cons, alistGetD_cons, alistGetD_cons, if_neg hne,
        alistGetD_eq_default_of_not_mem_keys hnotin]
    · rw [if_neg h1]
      by_cases h2 : k = k₀
      · rw [if_pos h2, alistGetD_cons, alistGetD_cons, alistGetD_cons, if_pos h2]
        by_cases h : k' = k₀
        · have hk : k' = k := h.trans h2.symm
          rw [if_pos hk, if_pos h]
        · have hk : k' ≠ k := fun he => h (he.trans h2)
          rw [if_neg hk, if_neg h, if_neg h]
      · rw [if_neg h2, alistGetD_cons, alistGetD_cons, alistGetD_cons, if_neg h2]
        by_cases h : k' = k₀
        · have hk : k' ≠ k := fun he => h2 (he.symm.trans h)
          rw [if_pos h, if_neg hk, if_pos h]
        · rw [if_neg h, if_neg h, ih hrest]

theorem mem_sizeAdd {m : List (Int × List Nat)} {k : Int} {i : Nat}
    {e : Int × List Nat} (hs : (m.map Prod.fst).Pairwise (· < ·))
    (h : e ∈ sizeAdd m k i) :
    e ∈ m ∨ (e.1 = k ∧ e.2 = addFileId (alistGetD m k []) i) := by
  induction m with
  | nil =>
    rw [sizeAdd_nil, List.mem_singleton] at h
    rw [h]
    exact Or.inr ⟨rfl, rfl⟩
  | cons e' rest ih =>
    obtain ⟨k₀, l₀⟩ := e'
    simp only [List.map_cons, List.pairwise_cons] at hs
    obtain ⟨hk₀, hrest⟩ := hs
    rw [sizeAdd_cons] at h
    by_cases h1 : k < k₀
    · have hne : k ≠ k₀ := by omega
      have hnotin : k ∉ rest.map Prod.fst := by
        intro hmem
        have := hk₀ k hmem; omega
      rw [if_pos h1, List.mem_cons] at h
      rcases h with h2 | h2
      · refine Or.inr ⟨?_, ?_⟩
        · rw [h2]
        · rw [h2, alistGetD_cons, if_neg hne,
            alistGetD_eq_default_of_not_mem_keys hnotin]
      · exact Or.inl h2
    · rw [if_neg h1] at h
      by_cases h2 : k = k₀
      · rw [if_pos h2, List.mem_cons] at h
        rcases h with h3 | h3
        · refine Or.inr ⟨?_, ?_⟩
          · rw [h3]; exact h2.symm
          · rw [h3, alistGetD_cons, if_pos h2]
        · exact Or.inl (List.mem_cons_of_mem _ h3)
      · rw [if_neg h2, List.mem_cons] at h
        rcases h with h3 | h3
        · rw [h3]; exact Or.inl (List.mem_cons_self _ _)
        · rcases ih hrest h3 with h4 | h4
          · exact Or.inl (List.mem_cons_of_mem _ h4)
          · refine Or.inr ⟨h4.1, ?_⟩
            rw [h4.2, alistGetD_cons, if_neg h2]

theorem alistGetD_idxRemove {K : Type} [DecidableEq K]
    {m : List (K × List Nat)} {k : K} {i : Nat}
    (hn : (m.map Prod.fst).Nodup) (k' : K) :
    alistGetD (idxRemove m k i) k' [] =
      if k' = k then removeFileId (alistGetD m k []) i else alistGetD m k' [] := by
  induction m with
  | nil =>
    rw [idxRemove_nil]
    by_cases h : k' = k
    · rw [if_pos h, alistGetD_nil, alistGetD_nil]; rfl
    · rw [if_neg h]
  | cons e rest ih =>
    obtain ⟨k₀, l₀⟩ := e
    simp only [List.map_cons, List.nodup_cons] at hn
    rw [idxRemove_cons]
    by_cases h0 : k = k₀
    · rw [if_pos h0, alistGetD_cons, if_pos h0]
      by_cases hempty : removeFileId l₀ i = []
      · rw [if_pos hempty]
        by_cases h : k' = k
        · have hnotin : k' ∉ rest.map Prod.fst := fun hm => hn.1 ((h.trans h0) ▸ hm)
          rw [if_pos h, hempty, alistGetD_eq_default_of_not_mem_keys hnotin]
        · have hk : k' ≠ k₀ := fun he => h (he.trans h0.symm)
          rw [if_neg h, alistGetD_cons, if_neg hk]
      · rw [if_neg hempty, alistGetD_cons, alistGetD_cons]
        by_cases h : k' = k
        · have hk : k' = k₀ := h.trans h0
          rw [if_pos hk, if_pos h]
        · have hk : k' ≠ k₀ := fun he => h (he.trans h0.symm)
          rw [if_neg hk, if_neg h, if_neg hk]
    · rw [if_neg h0, alistGetD_cons, alistGetD_cons, alistGetD_cons, if_neg h0]
      by_cases h : k' = k₀
      · have hk : k' ≠ k := fun he => h0 (he.symm.trans h)
        rw [if_pos h, if_neg hk, if_pos h]
      · rw [if_neg h, if_neg h, ih hn.2]

theorem mem_idxRemove {K : Type} [DecidableEq K]
    {m : List (K × List Nat)} {k : K} {i : Nat} {e : K × List Nat}
    (h : e ∈ idxRemove m k i) :
    ∃ e2 ∈ m, e.1 = e2.1 ∧ (e.2 = e2.2 ∨ e.2 = removeFileId e2.2 i) := by
  induction m with
  | nil =>
    rw [idxRemove_nil] at h
    cases h
  | cons e' rest ih =>
    obtain ⟨k₀, l₀⟩ := e'
    rw [idxRemove_cons] at h
    by_cases h0 : k = k₀
    · rw [if_pos h0] at h
      by_cases hempty : removeFileId l₀ i = []
      · rw [if_pos hempty] at h
        exact ⟨e, List.mem_cons_of_mem _ h, rfl, Or.inl rfl⟩
      · rw [if_neg hempty, List.mem_cons] at h
        rcases h with h2 | h2
        · refine ⟨(k₀, l₀), List.mem_cons_self _ _, ?_, ?_⟩
          · rw [h2]
          · rw [h2]; exact Or.inr rfl
        · exact ⟨e, List.mem_cons_of_mem _ h2, rfl, Or.inl rfl⟩
    · rw [if_neg h0, List.mem_cons] at h
      rcases h with h2 | h2
      · refine ⟨(k₀, l₀), List.mem_cons_self _ _, ?_, ?_⟩
        · rw [h2]
        · rw [h2]; exact Or.inl rfl
      · obtain ⟨e2, he2, hfst, hsnd⟩ := ih h2
        exact ⟨e2, List.mem_cons_of_mem _ he2, hfst, hsnd⟩

theorem idxRemove_ne_nil {K : Type} [DecidableEq K]
    {m : List (K × List Nat)} {k : K} {i : Nat}
    (h : ∀ e ∈ m, e.2 ≠ []) : ∀ e ∈ idxRemove m k i, e.2 ≠ [] := by
  induction m with
  | nil =>
    intro e he
    rw [idxRemove_nil] at he
    cases he
  | cons e' rest ih =>
    obtain ⟨k₀, l₀⟩ := e'
    intro e he
    rw [idxRemove_cons] at he
    by_cases h0 : k = k₀
    · rw [if_pos h0] at he
      by_cases hempty : removeFileId l₀ i = []
      · rw [if_pos hempty] at he
        exact h e (List.mem_cons_of_mem _ he)
      · rw [if_neg hempty, List.mem_cons] at he
        rcases he with h2 | h2
        · rw [h2]; exact hempty
        · exact h e (List.mem_cons_of_mem _ h2)
    · rw [if_neg h0, List.mem_cons] at he
      rcases he with h2 | h2
      · rw [h2]; exact h (k₀, l₀) (List.mem_cons_self _ _)
      · exact ih (fun e2 he2 => h e2 (List.mem_cons_of_mem _ he2)) e h2

theorem idxRemove_keys_sublist {K : Type} [DecidableEq K]
    (m : List (K × List Nat)) (k : K) (i : Nat) :
    List.Sublist ((idxRemove m k i).map Prod.fst) (m.map Prod.fst) := by
  induction m with
  | nil => simp [idxRemove_nil]
  | cons e rest ih =>
    obtain ⟨k₀, l₀⟩ := e
    rw [idxRemove_cons]
    by_cases h0 : k = k₀
    · rw [if_pos h0]
      by_cases hempty : removeFileId l₀ i = []
      · rw [if_pos hempty]
        simp only [List.map_cons]
        exact List.sublist_cons_of_sublist _ (List.Sublist.refl _)
      · rw [if_neg hempty]
        simp only [List.map_cons]
        exact List.Sublist.cons₂ _ (List.Sublist.refl _)
    · rw [if_neg h0]
      simp only [List.map_cons]
      exact List.Sublist.cons₂ _ ih

/-! ## Path-splitting lemmas -/

theorem splitSegs_cons (c : Char) (rest : Str) :
    splitSegs (c :: rest) =
      if c = '/' then [] :: splitSegs rest
      else
        match splitSegs rest with
        | [] => [[c]]
        | s :: ss => (c :: s) :: ss := rfl

theorem splitAll_cons (c : Char) (rest : Str) :
    splitAll (c :: rest) =
      if c = '/' then [] :: splitAll rest
      else
        match splitAll rest with
        | [] => [[c]]
        | s :: ss => (c :: s) :: ss := rfl

theorem pathSegs_cons (c : Char) (xs : Str) :
    pathSegs (c :: xs) = (splitSegs xs).filter (fun t => t ≠ []) := rfl

theorem splitAll_ne_nil (cs : Str) : splitAll cs ≠ [] := by
  cases cs with
  | nil => simp [splitAll]
  | cons c rest =>
    rw [splitAll_cons]
    by_cases hc : c = '/'
    · rw [if_pos hc]; simp
    · rw [if_neg hc]
      cases h : splitAll rest with
      | nil => simp
      | cons s ss => simp

theorem splitSegs_append_slash (cs ds : Str) :
    splitSegs (cs ++ '/' :: ds) = splitAll cs ++ splitSegs ds := by
  induction cs with
  | nil =>
    rw [List.nil_append, splitSegs_cons, if_pos rfl]
    rfl
  | cons c cs ih =>
    rw [List.cons_append, splitSegs_cons, splitAll_cons]
    by_cases hc : c = '/'
    · rw [if_pos hc, if_pos hc, ih, List.cons_append]
    · rw [if_neg hc, if_neg hc, ih]
      cases h : splitAll cs with
      | nil => exact absurd h (splitAll_ne_nil cs)
      | cons s ss => rfl



theorem splitAll_eq_or (cs : Str) :
    splitAll cs = splitSegs cs ∨ splitAll cs = splitSegs cs ++ [[]] := by
  induction cs with
  | nil => right; rfl
  | cons c cs ih =>
    rw [splitAll_cons, splitSegs_cons]
    by_cases hc : c = '/'
    · rw [if_pos hc, if_pos hc]
      rcases ih with h | h
      · left; rw [h]
      · right; rw [h, List.cons_append]
    · rw [if_neg hc, if_neg hc]
      rcases ih with h | h
      · cases h2 : splitSegs cs with
        | nil => left; rw [h, h2]
        | cons s ss => left; rw [h, h2]
      · cases h2 : splitSegs cs with
        | nil =>
          left
          rw [h, h2]
          rfl
        | cons s ss =>
          right
          rw [h, h2, List.cons_append]
          rfl

theorem filter_splitAll (cs : Str) :
    (splitAll cs).filter (fun t => t ≠ []) = (splitSegs cs).filter (fun t => t ≠ []) := by
  rcases splitAll_eq_or cs with h | h
  · rw [h]
  · rw [h, List.filter_append]
    simp

theorem splitSegs_append_slash_nil (q : Str) :
    splitSegs (q ++ ['/']) = splitAll q := by
  induction q with
  | nil => rfl
  | cons c q ih =>
    rw [List.cons_append, splitSegs_cons, splitAll_cons]
    by_cases hc : c = '/'
    · rw [if_pos hc, if_pos hc, ih]
    · rw [if_neg hc, if_neg hc, ih]

theorem splitAll_no_slash {n : Str} (h : '/' ∉ n) : splitAll n = [n] := by
  induction n with
  | nil => rfl
  | cons c m ih =>
    rw [List.mem_cons] at h
    push_neg at h
    have hc : c ≠ '/' := fun he => h.1 he.symm
    rw [splitAll_cons, if_neg hc, ih h.2]

theorem splitSegs_no_slash {n : Str} (hne : n ≠ []) (h : '/' ∉ n) :
    splitSegs n = [n] := by
  cases n with
  | nil => exact absurd rfl hne
  | cons c m =>
    rw [List.mem_cons] at h
    push_neg at h
    have hc : c ≠ '/' := fun he => h.1 he.symm
    rw [splitSegs_cons, if_neg hc]
    cases hm : m with
    | nil => rfl
    | cons c2 m2 =>
      rw [← hm, splitSegs_no_slash (by rw [hm]; simp) h.2]

theorem pathSegs_fullPath {path n : Str} {rest : Str} (hp : path = '/' :: rest)
    (hn : n ≠ []) (hsl : '/' ∉ n) :
    pathSegs (path ++ (if path.getLast? = some '/' then [] else ['/']) ++ n) =
      pathSegs path ++ [n] := by
  subst hp
  by_cases hlast : ('/' :: rest).getLast? = some '/'
  · rw [if_pos hlast, List.append_nil]
    by_cases hrnil : rest = []
    · subst hrnil
      show pathSegs (['/'] ++ n) = pathSegs ['/'] ++ [n]
      rw [show (['/'] ++ n : Str) = '/' :: n from rfl, pathSegs_cons,
        splitSegs_no_slash hn hsl]
      simp [pathSegs_cons, splitSegs, hn]
    · have hlast2 : rest.getLast? = some '/' := by
        obtain ⟨c, rs, hr⟩ := List.exists_cons_of_ne_nil hrnil
        rw [hr] at hlast
        rw [List.getLast?_cons_cons] at hlast
        rw [hr]
        exact hlast
      have hdecomp : rest.dropLast ++ ['/'] = rest :=
        List.dropLast_append_getLast? '/' hlast2
      rw [show (('/' :: rest) ++ n : Str) = '/' :: (rest ++ n) from rfl, pathSegs_cons,
        pathSegs_cons, ← hdecomp, List.append_assoc,
        show ((['/'] ++ n : Str)) = '/' :: n from rfl,
        splitSegs_append_slash _ _, splitSegs_append_slash_nil,
        splitSegs_no_slash hn hsl, List.filter_append]
      simp [hn]
  · rw [if_neg hlast]
    rw [show (('/' :: rest) ++ ['/'] ++ n : Str) = '/' :: (rest ++ '/' :: n) from by simp,
      pathSegs_cons, pathSegs_cons, splitSegs_append_slash _ _,
      splitSegs_no_slash hn hsl, List.filter_append, filter_splitAll]
    simp [hn]

theorem filter_splitSegs_dup_slash (a b : Str) :
    (splitSegs (a ++ '/' :: '/' :: b)).filter (fun t => t ≠ []) =
      (splitSegs (a ++ '/' :: b)).filter (fun t => t ≠ []) := by
  by_cases hbnil : b = []
  · subst hbnil
    rw [splitSegs_append_slash a ['/'],
      splitSegs_append_slash_nil, List.filter_append]
    simp [splitSegs]
  · rw [splitSegs_append_slash a ('/' :: b),
      splitSegs_append_slash a b, splitSegs_cons, if_pos rfl,
      List.filter_append, List.filter_append]
    simp

/-! ## Directory-tree lemmas -/

@[simp] theorem DirectoryNode.name_mk (n : Str) (d : Bool) (f : Option FileMetadata)
    (c : ChildMap) : (DirectoryNode.mk n d f c).name = n := rfl

@[simp] theorem DirectoryNode.isDirectory_mk (n : Str) (d : Bool) (f : Option FileMetadata)
    (c : ChildMap) : (DirectoryNode.mk n d f c).isDirectory = d := rfl

@[simp] theorem DirectoryNode.fileData_mk (n : Str) (d : Bool) (f : Option FileMetadata)
    (c : ChildMap) : (DirectoryNode.mk n d f c).fileData = f := rfl

@[simp] theorem DirectoryNode.children_mk (n : Str) (d : Bool) (f : Option FileMetadata)
    (c : ChildMap) : (DirectoryNode.mk n d f c).children = c := rfl

theorem cmLookup_cons (k₀ : Str) (c₀ : DirectoryNode) (rest : ChildMap) (k : Str) :
    cmLookup (.cons k₀ c₀ rest) k = if k = k₀ then some c₀ else cmLookup rest k := rfl

theorem cmSet_cons (k₀ : Str) (c₀ : DirectoryNode) (rest : ChildMap) (k : Str)
    (v : DirectoryNode) :
    cmSet (.cons k₀ c₀ rest) k v =
      if k = k₀ then .cons k₀ v rest else .cons k₀ c₀ (cmSet rest k v) := rfl

theorem cmErase_cons (k₀ : Str) (c₀ : DirectoryNode) (rest : ChildMap) (k : Str) :
    cmErase (.cons k₀ c₀ rest) k =
      if k = k₀ then rest else .cons k₀ c₀ (cmErase rest k) := rfl

theorem cmHasKey_cons (k₀ : Str) (c₀ : DirectoryNode) (rest : ChildMap) (k : Str) :
    cmHasKey (.cons k₀ c₀ rest) k = (decide (k = k₀) || cmHasKey rest k) := rfl

theorem collectFiles_mk (n : Str) (d : Bool) (f : Option FileMetadata) (ch : ChildMap) :
    collectFiles (.mk n d f ch) =
      (match d, f with
       | false, some r => [r]
       | _, _ => []) ++ collectFilesCM ch := rfl

theorem collectFilesCM_cons (k : Str) (c : DirectoryNode) (rest : ChildMap) :
    collectFilesCM (.cons k c rest) = collectFiles c ++ collectFilesCM rest := rfl

theorem treeWf_mk (n : Str) (d : Bool) (f : Option FileMetadata) (ch : ChildMap) :
    treeWf (.mk n d f ch) = treeWfCM ch := rfl

theorem treeWfCM_cons (k : Str) (c : DirectoryNode) (rest : ChildMap) :
    treeWfCM (.cons k c rest) =
      (decide (c.name = k) && !(cmHasKey rest k) && treeWf c && treeWfCM rest) := rfl

theorem treeWf_children (node : DirectoryNode) : treeWf node = treeWfCM node.children := by
  cases node
  rfl

/-- List-style induction for `ChildMap` (no recursion into the nodes),
usable where the mutual recursor is inconvenient. -/
theorem ChildMap.consInduction {P : ChildMap → Prop} (hnil : P .nil)
    (hcons : ∀ k c rest, P rest → P (.cons k c rest)) : ∀ cm, P cm
  | .nil => hnil
  | .cons k c rest => hcons k c rest (ChildMap.consInduction hnil hcons rest)

theorem cmLookup_cmSet_self (cm : ChildMap) (k : Str) (v : DirectoryNode) :
    cmLookup (cmSet cm k v) k = some v := by
  induction cm using ChildMap.consInduction with
  | hnil => simp [cmSet, cmLookup]
  | hcons k₀ c₀ rest ih =>
    rw [cmSet_cons]
    by_cases h : k = k₀
    · rw [if_pos h, cmLookup_cons, if_pos h]
    · rw [if_neg h, cmLookup_cons, if_neg h, ih]

theorem cmLookup_cmSet_ne (cm : ChildMap) (k k' : Str) (v : DirectoryNode)
    (h : k' ≠ k) : cmLookup (cmSet cm k v) k' = cmLookup cm k' := by
  induction cm using ChildMap.consInduction with
  | hnil => simp only [cmSet, cmLookup_cons, if_neg h]
  | hcons k₀ c₀ rest ih =>
    rw [cmSet_cons]
    by_cases h0 : k = k₀
    · have h' : k' ≠ k₀ := fun he => h (he.trans h0.symm)
      rw [if_pos h0, cmLookup_cons, cmLookup_cons, if_neg h', if_neg h']
    · rw [if_neg h0, cmLookup_cons, cmLookup_cons, ih]

theorem cmLookup_cmErase_ne (cm : ChildMap) (k k' : Str) (h : k' ≠ k) :
    cmLookup (cmErase cm k) k' = cmLookup cm k' := by
  induction cm using ChildMap.consInduction with
  | hnil => rfl
  | hcons k₀ c₀ rest ih =>
    rw [cmErase_cons]
    by_cases h0 : k = k₀
    · have h' : k' ≠ k₀ := fun he => h (he.trans h0.symm)
      rw [if_pos h0, cmLookup_cons, if_neg h']
    · rw [if_neg h0, cmLookup_cons, cmLookup_cons, ih]

theorem cmLookup_eq_none_of_not_hasKey {cm : ChildMap} {k : Str}
    (h : cmHasKey cm k = false) : cmLookup cm k = none := by
  induction cm using ChildMap.consInduction with
  | hnil => rfl
  | hcons k₀ c₀ rest ih =>
    rw [cmHasKey_cons, Bool.or_eq_false_iff] at h
    have hk : k ≠ k₀ := by
      intro he
      rw [he] at h
      simp at h
    rw [cmLookup_cons, if_neg hk]
    exact ih h.2

theorem cmHasKey_cmErase_imp {cm : ChildMap} {k k' : Str}
    (h : cmHasKey (cmErase cm k) k' = true) : cmHasKey cm k' = true := by
  induction cm using ChildMap.consInduction with
  | hnil => cases h
  | hcons k₀ c₀ rest ih =>
    rw [cmErase_cons] at h
    rw [cmHasKey_cons]
    by_cases h0 : k = k₀
    · rw [if_pos h0] at h
      rw [h, Bool.or_true]
    · rw [if_neg h0, cmHasKey_cons] at h
      rcases Bool.or_eq_true_iff.mp h with h2 | h2
      · rw [h2, Bool.true_or]
      · rw [ih h2, Bool.or_true]

theorem cmHasKey_cmSet {cm : ChildMap} {k k' : Str} {v : DirectoryNode} :
    cmHasKey (cmSet cm k v) k' = (cmHasKey cm k' || decide (k' = k)) := by
  induction cm using ChildMap.consInduction with
  | hnil => simp [cmSet, cmHasKey, cmHasKey_cons]
  | hcons k₀ c₀ rest ih =>
    rw [cmSet_cons]
    by_cases h0 : k = k₀
    · rw [if_pos h0, cmHasKey_cons, cmHasKey_cons]
      by_cases h : k' = k₀
      · have : k' = k := h.trans h0.symm
        simp [h, this]
      · have : k' ≠ k := fun he => h (he.trans h0)
        simp [h, this]
    · rw [if_neg h0, cmHasKey_cons, cmHasKey_cons, ih, Bool.or_assoc]

theorem treeWf_of_cmLookup {cm : ChildMap} {k : Str} {c : DirectoryNode}
    (hwf : treeWfCM cm = true) (h : cmLookup cm k = some c) :
    treeWf c = true ∧ c.name = k := by
  induction cm using ChildMap.consInduction with
  | hnil => cases h
  | hcons k₀ c₀ rest ih =>
    rw [treeWfCM_cons] at hwf
    simp only [Bool.and_eq_true, Bool.not_eq_true', decide_eq_true_eq] at hwf
    obtain ⟨⟨⟨hname, hdup⟩, hwfc⟩, hwfrest⟩ := hwf
    rw [cmLookup_cons] at h
    by_cases hk : k = k₀
    · rw [if_pos hk] at h
      cases h
      exact ⟨hwfc, hname.symm ▸ hk.symm ▸ rfl⟩
    · rw [if_neg hk] at h
      exact ih hwfrest h

theorem cmLookup_cmErase_self {cm : ChildMap} {k : Str}
    (hwf : treeWfCM cm = true) : cmLookup (cmErase cm k) k = none := by
  induction cm using ChildMap.consInduction with
  | hnil => rfl
  | hcons k₀ c₀ rest ih =>
    rw [treeWfCM_cons] at hwf
    simp only [Bool.and_eq_true, Bool.not_eq_true', decide_eq_true_eq] at hwf
    obtain ⟨⟨⟨hname, hdup⟩, hwfc⟩, hwfrest⟩ := hwf
    rw [cmErase_cons]
    by_cases h0 : k = k₀
    · rw [if_pos h0]
      exact cmLookup_eq_none_of_not_hasKey (h0 ▸ hdup)
    · rw [if_neg h0, cmLookup_cons, if_neg h0]
      exact ih hwfrest

theorem treeWfCM_cmSet {cm : ChildMap} {k : Str} {v : DirectoryNode}
    (hwf : treeWfCM cm = true) (hname : v.name = k) (hv : treeWf v = true) :
    treeWfCM (cmSet cm k v) = true := by
  induction cm using ChildMap.consInduction with
  | hnil =>
    show treeWfCM (.cons k v .nil) = true
    rw [treeWfCM_cons]
    simp [hname, hv, cmHasKey, treeWfCM]
  | hcons k₀ c₀ rest ih =>
    rw [treeWfCM_cons] at hwf
    simp only [Bool.and_eq_true, Bool.not_eq_true', decide_eq_true_eq] at hwf
    obtain ⟨⟨⟨hname0, hdup⟩, hwfc⟩, hwfrest⟩ := hwf
    rw [cmSet_cons]
    by_cases h0 : k = k₀
    · rw [if_pos h0, treeWfCM_cons]
      simp only [Bool.and_eq_true, Bool.not_eq_true', decide_eq_true_eq]
      exact ⟨⟨⟨h0 ▸ hname, hdup⟩, hv⟩, hwfrest⟩
    · rw [if_neg h0, treeWfCM_cons]
      simp only [Bool.and_eq_true, Bool.not_eq_true', decide_eq_true_eq]
      refine ⟨⟨⟨hname0, ?_⟩, hwfc⟩, ih hwfrest⟩
      rw [cmHasKey_cmSet]
      have : k₀ ≠ k := fun he => h0 he.symm
      simp [hdup, this]

theorem treeWfCM_cmErase {cm : ChildMap} {k : Str}
    (hwf : treeWfCM cm = true) : treeWfCM (cmErase cm k) = true := by
  induction cm using ChildMap.consInduction with
  | hnil => rfl
  | hcons k₀ c₀ rest ih =>
    rw [treeWfCM_cons] at hwf
    simp only [Bool.and_eq_true, Bool.not_eq_true', decide_eq_true_eq] at hwf
    obtain ⟨⟨⟨hname0, hdup⟩, hwfc⟩, hwfrest⟩ := hwf
    rw [cmErase_cons]
    by_cases h0 : k = k₀
    · rw [if_pos h0]
      exact hwfrest
    · rw [if_neg h0, treeWfCM_cons]
      simp only [Bool.and_eq_true, Bool.not_eq_true', decide_eq_true_eq]
      refine ⟨⟨⟨hname0, ?_⟩, hwfc⟩, ih hwfrest⟩
      cases hdk : cmHasKey (cmErase rest k) k₀
      · rfl
      · exact absurd (cmHasKey_cmErase_imp hdk) (by rw [hdup]; simp)

theorem collectFilesCM_nil : collectFilesCM .nil = [] := rfl

theorem collectCM_cmSet_none {cm : ChildMap} {k : Str} {v : DirectoryNode}
    (h : cmLookup cm k = none) :
    collectFilesCM (cmSet cm k v) = collectFilesCM cm ++ collectFiles v := by
  induction cm using ChildMap.consInduction with
  | hnil => simp [cmSet, collectFilesCM_cons, collectFilesCM_nil]
  | hcons k₀ c₀ rest ih =>
    rw [cmLookup_cons] at h
    by_cases h0 : k = k₀
    · rw [if_pos h0] at h
      cases h
    · rw [if_neg h0] at h
      rw [cmSet_cons, if_neg h0, collectFilesCM_cons, collectFilesCM_cons, ih h,
        List.append_assoc]

theorem collectCM_cmSet_some {cm : ChildMap} {k : Str} {c v : DirectoryNode}
    (h : cmLookup cm k = some c) :
    (collectFilesCM (cmSet cm k v) ++ collectFiles c).Perm
      (collectFilesCM cm ++ collectFiles v) := by
  induction cm using ChildMap.consInduction with
  | hnil => cases h
  | hcons k₀ c₀ rest ih =>
    rw [cmLookup_cons] at h
    by_cases h0 : k = k₀
    · rw [if_pos h0] at h
      have hc : c₀ = c := by injection h
      subst hc
      rw [cmSet_cons, if_pos h0, collectFilesCM_cons, collectFilesCM_cons]
      rw [← Multiset.coe_eq_coe]
      simp only [← Multiset.coe_add]
      abel
    · rw [if_neg h0] at h
      have hrest := ih h
      rw [cmSet_cons, if_neg h0, collectFilesCM_cons, collectFilesCM_cons]
      rw [← Multiset.coe_eq_coe] at hrest ⊢
      simp only [← Multiset.coe_add] at hrest ⊢
      rw [add_assoc, hrest, add_assoc]

theorem collectCM_cmErase_some {cm : ChildMap} {k : Str} {c : DirectoryNode}
    (h : cmLookup cm k = some c) :
    (collectFilesCM cm).Perm (collectFiles c ++ collectFilesCM (cmErase cm k)) := by
  induction cm using ChildMap.consInduction with
  | hnil => cases h
  | hcons k₀ c₀ rest ih =>
    rw [cmLookup_cons] at h
    by_cases h0 : k = k₀
    · rw [if_pos h0] at h
      have hc : c₀ = c := by injection h
      subst hc
      rw [cmErase_cons, if_pos h0, collectFilesCM_cons]
    · rw [if_neg h0] at h
      have hrest := ih h
      rw [cmErase_cons, if_neg h0, collectFilesCM_cons, collectFilesCM_cons]
      rw [← Multiset.coe_eq_coe] at hrest ⊢
      simp only [← Multiset.coe_add] at hrest ⊢
      rw [hrest]
      abel

theorem mem_collectCM_of_lookup {cm : ChildMap} {k : Str} {c : DirectoryNode}
    (h : cmLookup cm k = some c) {r : FileMetadata} (hr : r ∈ collectFiles c) :
    r ∈ collectFilesCM cm := by
  induction cm using ChildMap.consInduction with
  | hnil => cases h
  | hcons k₀ c₀ rest ih =>
    rw [cmLookup_cons] at h
    rw [collectFilesCM_cons, List.mem_append]
    by_cases h0 : k = k₀
    · rw [if_pos h0] at h
      have hc : c₀ = c := by injection h
      subst hc
      exact Or.inl hr
    · rw [if_neg h0] at h
      exact Or.inr (ih h)

/-! ## Segment-walk lemmas -/

theorem findNodeSegs_nil (node : DirectoryNode) : findNodeSegs node [] = some node := rfl

theorem findNodeSegs_cons (node : DirectoryNode) (seg : Str) (rest : List Str) :
    findNodeSegs node (seg :: rest) =
      match cmLookup node.children seg with
      | none => none
      | some c => findNodeSegs c rest := rfl

theorem ensureAttach_nil (node : DirectoryNode) (name : Str) (child : DirectoryNode) :
    ensureAttach node [] name child =
      .mk node.name node.isDirectory node.fileData (cmSet node.children name child) := rfl

theorem ensureAttach_cons (node : DirectoryNode) (seg : Str) (rest : List Str)
    (name : Str) (child : DirectoryNode) :
    ensureAttach node (seg :: rest) name child =
      .mk node.name node.isDirectory node.fileData
        (cmSet node.children seg
          (ensureAttach
            (match cmLookup node.children seg with
             | some c => c
             | none => .mk seg true none .nil) rest name child)) := rfl

theorem detachNode_nil (p : DirectoryNode) (nodeName : Str) :
    detachNode p [] nodeName =
      .mk p.name p.isDirectory p.fileData (cmErase p.children nodeName) := rfl

theorem detachNode_cons (p : DirectoryNode) (seg : Str) (rest : List Str) (nodeName : Str) :
    detachNode p (seg :: rest) nodeName =
      match cmLookup p.children seg with
      | none => p
      | some c =>
        .mk p.name p.isDirectory p.fileData
          (cmSet p.children seg (detachNode c rest nodeName)) := rfl

theorem ensureAttach_name (node : DirectoryNode) (segs : List Str) (name : Str)
    (child : DirectoryNode) : (ensureAttach node segs name child).name = node.name := by
  cases segs with
  | nil => rfl
  | cons seg rest => rfl

theorem detachNode_name (p : DirectoryNode) (segs : List Str) (nodeName : Str) :
    (detachNode p segs nodeName).name = p.name := by
  cases segs with
  | nil => rfl
  | cons seg rest =>
    rw [detachNode_cons]
    cases hl : cmLookup p.children seg with
    | none => rfl
    | some c => rfl

theorem findNodeSegs_ensureAttach (segs : List Str) (node : DirectoryNode)
    (name : Str) (child : DirectoryNode) :
    findNodeSegs (ensureAttach node segs name child) (segs ++ [name]) = some child := by
  induction segs generalizing node with
  | nil =>
    rw [ensureAttach_nil, List.nil_append]
    simp only [findNodeSegs_cons, DirectoryNode.children_mk, cmLookup_cmSet_self]
    rfl
  | cons seg rest ih =>
    rw [ensureAttach_cons, List.cons_append]
    simp only [findNodeSegs_cons, DirectoryNode.children_mk, cmLookup_cmSet_self]
    exact ih _

theorem findNodeSegs_dirNode_append (seg name : Str) (xs : List Str) :
    findNodeSegs (.mk seg true none .nil) (xs ++ [name]) = none := by
  cases xs with
  | nil => rfl
  | cons x rest => rfl

theorem collectFiles_dirNode (seg : Str) :
    collectFiles (.mk seg true none .nil) = [] := rfl

theorem ensure_perm_none {segs : List Str} {node : DirectoryNode} {name : Str}
    {child : DirectoryNode}
    (h : findNodeSegs node (segs ++ [name]) = none) :
    (collectFiles (ensureAttach node segs name child)).Perm
      (collectFiles node ++ collectFiles child) := by
  induction segs generalizing node with
  | nil =>
    rw [List.nil_append, findNodeSegs_cons] at h
    have hl : cmLookup node.children name = none := by
      cases hl : cmLookup node.children name with
      | none => rfl
      | some c =>
        rw [hl] at h
        simp only [findNodeSegs_nil] at h
        cases h
    cases node with
    | mk n d f ch =>
      rw [ensureAttach_nil]
      simp only [DirectoryNode.children_mk, DirectoryNode.name_mk,
        DirectoryNode.isDirectory_mk, DirectoryNode.fileData_mk] at hl ⊢
      rw [collectFiles_mk, collectFiles_mk, collectCM_cmSet_none hl, List.append_assoc]
  | cons seg rest ih =>
    rw [List.cons_append, findNodeSegs_cons] at h
    cases node with
    | mk n d f ch =>
      rw [ensureAttach_cons]
      simp only [DirectoryNode.children_mk, DirectoryNode.name_mk,
        DirectoryNode.isDirectory_mk, DirectoryNode.fileData_mk] at h ⊢
      cases hl : cmLookup ch seg with
      | none =>
        simp only []
        rw [collectFiles_mk, collectFiles_mk, collectCM_cmSet_none hl, List.append_assoc]
        refine List.Perm.append_left _ (List.Perm.append_left _ ?_)
        have hsub := ih (findNodeSegs_dirNode_append seg name rest)
        rw [collectFiles_dirNode, List.nil_append] at hsub
        exact hsub
      | some c =>
        rw [hl] at h
        simp only [] at h ⊢
        have hsub := ih h
        have hset := collectCM_cmSet_some (v := ensureAttach c rest name child) hl
        rw [collectFiles_mk, collectFiles_mk]
        rw [← Multiset.coe_eq_coe] at hsub hset ⊢
        simp only [← Multiset.coe_add] at hsub hset ⊢
        have hcancel : (collectFilesCM (cmSet ch seg (ensureAttach c rest name child)) :
            Multiset FileMetadata) = ↑(collectFilesCM ch) + ↑(collectFiles child) := by
          have := hset
          rw [hsub] at this
          have h2 : (↑(collectFilesCM (cmSet ch seg (ensureAttach c rest name child))) +
              ↑(collectFiles c) : Multiset FileMetadata) =
              (↑(collectFilesCM ch) + ↑(collectFiles child)) + ↑(collectFiles c) := by
            rw [this]; abel
          exact add_right_cancel h2
        rw [hcancel]
        abel

theorem ensure_perm_some {segs : List Str} {node old : DirectoryNode} {name : Str}
    {child : DirectoryNode}
    (h : findNodeSegs node (segs ++ [name]) = some old) :
    (collectFiles (ensureAttach node segs name child) ++ collectFiles old).Perm
      (collectFiles node ++ collectFiles child) := by
  induction segs generalizing node with
  | nil =>
    rw [List.nil_append, findNodeSegs_cons] at h
    cases node with
    | mk n d f ch =>
      simp only [DirectoryNode.children_mk] at h
      cases hl : cmLookup ch name with
      | none =>
        rw [hl] at h
        cases h
      | some c =>
        rw [hl] at h
        simp only [findNodeSegs_nil] at h
        have hc : c = old := by injection h
        subst hc
        rw [ensureAttach_nil]
        simp only [DirectoryNode.children_mk, DirectoryNode.name_mk,
          DirectoryNode.isDirectory_mk, DirectoryNode.fileData_mk]
        rw [collectFiles_mk, collectFiles_mk]
        have hset := collectCM_cmSet_some (v := child) hl
        rw [← Multiset.coe_eq_coe] at hset ⊢
        simp only [← Multiset.coe_add] at hset ⊢
        rw [add_assoc, hset]
        abel
  | cons seg rest ih =>
    rw [List.cons_append, findNodeSegs_cons] at h
    cases node with
    | mk n d f ch =>
      simp only [DirectoryNode.children_mk] at h
      cases hl : cmLookup ch seg with
      | none =>
        rw [hl] at h
        cases h
      | some c =>
        rw [hl] at h
        simp only [] at h
        have hsub := ih h
        rw [ensureAttach_cons]
        simp only [DirectoryNode.children_mk, DirectoryNode.name_mk,
          DirectoryNode.isDirectory_mk, DirectoryNode.fileData_mk, hl]
        rw [collectFiles_mk, collectFiles_mk]
        have hset := collectCM_cmSet_some (v := ensureAttach c rest name child) hl
        rw [← Multiset.coe_eq_coe] at hsub hset ⊢
        simp only [← Multiset.coe_add] at hsub hset ⊢
        have hcancel : (collectFilesCM (cmSet ch seg (ensureAttach c rest name child)) +
            ↑(collectFiles old) : Multiset FileMetadata) =
            ↑(collectFilesCM ch) + ↑(collectFiles child) := by
          have h2 : (↑(collectFilesCM (cmSet ch seg (ensureAttach c rest name child))) +
              ↑(collectFiles old) : Multiset FileMetadata) + ↑(collectFiles c) =
              (↑(collectFilesCM ch) + ↑(collectFiles child)) + ↑(collectFiles c) := by
            calc (↑(collectFilesCM (cmSet ch seg (ensureAttach c rest name child))) +
                  ↑(collectFiles old) : Multiset FileMetadata) + ↑(collectFiles c)
                = (↑(collectFilesCM (cmSet ch seg (ensureAttach c rest name child))) +
                    ↑(collectFiles c)) + ↑(collectFiles old) := by abel
              _ = (↑(collectFilesCM ch) +
                    ↑(collectFiles (ensureAttach c rest name child))) +
                    ↑(collectFiles old) := by rw [hset]
              _ = ↑(collectFilesCM ch) +
                    (↑(collectFiles (ensureAttach c rest name child)) +
                      ↑(collectFiles old)) := by abel
              _ = ↑(collectFilesCM ch) + (↑(collectFiles c) + ↑(collectFiles child)) := by
                    rw [hsub]
              _ = (↑(collectFilesCM ch) + ↑(collectFiles child)) + ↑(collectFiles c) := by
                    abel
          exact add_right_cancel h2
        rw [add_assoc, hcancel]
        abel

theorem treeWf_ensureAttach {node : DirectoryNode} {segs : List Str} {name : Str}
    {child : DirectoryNode} (hwf : treeWf node = true) (hname : child.name = name)
    (hchild : treeWf child = true) :
    treeWf (ensureAttach node segs name child) = true := by
  induction segs generalizing node with
  | nil =>
    rw [ensureAttach_nil, treeWf_mk]
    rw [treeWf_children] at hwf
    exact treeWfCM_cmSet hwf hname hchild
  | cons seg rest ih =>
    rw [ensureAttach_cons, treeWf_mk]
    rw [treeWf_children] at hwf
    cases hl : cmLookup node.children seg with
    | none =>
      simp only [hl]
      refine treeWfCM_cmSet hwf ?_ ?_
      · rw [ensureAttach_name]
        rfl
      · exact ih rfl
    | some c =>
      simp only [hl]
      obtain ⟨hwfc, hcname⟩ := treeWf_of_cmLookup hwf hl
      refine treeWfCM_cmSet hwf ?_ ?_
      · rw [ensureAttach_name]
        exact hcname
      · exact ih hwfc

theorem findNodeSegs_name {segs : List Str} {k : Str} {root node : DirectoryNode}
    (hwf : treeWf root = true) (h : findNodeSegs root (segs ++ [k]) = some node) :
    node.name = k := by
  induction segs generalizing root with
  | nil =>
    rw [List.nil_append, findNodeSegs_cons] at h
    cases hl : cmLookup root.children k with
    | none =>
      rw [hl] at h
      cases h
    | some c =>
      rw [hl] at h
      simp only [findNodeSegs_nil] at h
      have hc : c = node := by injection h
      subst hc
      rw [treeWf_children] at hwf
      exact (treeWf_of_cmLookup hwf hl).2
  | cons seg rest ih =>
    rw [List.cons_append, findNodeSegs_cons] at h
    cases hl : cmLookup root.children seg with
    | none =>
      rw [hl] at h
      cases h
    | some c =>
      rw [hl] at h
      simp only [] at h
      rw [treeWf_children] at hwf
      exact ih (treeWf_of_cmLookup hwf hl).1 h

theorem detach_perm {segs : List Str} {k : Str} {root node : DirectoryNode}
    (hwf : treeWf root = true) (h : findNodeSegs root (segs ++ [k]) = some node) :
    (collectFiles (detachNode root segs k) ++ collectFiles node).Perm
      (collectFiles root) := by
  induction segs generalizing root with
  | nil =>
    rw [List.nil_append, findNodeSegs_cons] at h
    cases root with
    | mk n d f ch =>
      simp only [DirectoryNode.children_mk] at h
      cases hl : cmLookup ch k with
      | none =>
        rw [hl] at h
        cases h
      | some c =>
        rw [hl] at h
        simp only [findNodeSegs_nil] at h
        have hc : c = node := by injection h
        subst hc
        rw [detachNode_nil]
        simp only [DirectoryNode.children_mk, DirectoryNode.name_mk,
          DirectoryNode.isDirectory_mk, DirectoryNode.fileData_mk]
        rw [collectFiles_mk, collectFiles_mk]
        have herase := collectCM_cmErase_some hl
        rw [← Multiset.coe_eq_coe] at herase ⊢
        simp only [← Multiset.coe_add] at herase ⊢
        rw [herase]
        abel
  | cons seg rest ih =>
    rw [List.cons_append, findNodeSegs_cons] at h
    cases root with
    | mk n d f ch =>
      simp only [DirectoryNode.children_mk] at h
      cases hl : cmLookup ch seg with
      | none =>
        rw [hl] at h
        cases h
      | some c =>
        rw [hl] at h
        simp only [] at h
        rw [treeWf_mk] at hwf
        have hwfc := (treeWf_of_cmLookup hwf hl).1
        have hsub := ih hwfc h
        rw [detachNode_cons]
        simp only [DirectoryNode.children_mk, DirectoryNode.name_mk,
          DirectoryNode.isDirectory_mk, DirectoryNode.fileData_mk, hl]
        rw [collectFiles_mk, collectFiles_mk]
        have hset := collectCM_cmSet_some (v := detachNode c rest k) hl
        rw [← Multiset.coe_eq_coe] at hsub hset ⊢
        simp only [← Multiset.coe_add] at hsub hset ⊢
        have hcancel : (collectFilesCM (cmSet ch seg (detachNode c rest k)) +
            ↑(collectFiles node) : Multiset FileMetadata) = ↑(collectFilesCM ch) := by
          have h2 : (↑(collectFilesCM (cmSet ch seg (detachNode c rest k))) +
              ↑(collectFiles node) : Multiset FileMetadata) + ↑(collectFiles c) =
              ↑(collectFilesCM ch) + ↑(collectFiles c) := by
            calc (↑(collectFilesCM (cmSet ch seg (detachNode c rest k))) +
                  ↑(collectFiles node) : Multiset FileMetadata) + ↑(collectFiles c)
                = (↑(collectFilesCM (cmSet ch seg (detachNode c rest k))) +
                    ↑(collectFiles c)) + ↑(collectFiles node) := by abel
              _ = (↑(collectFilesCM ch) + ↑(collectFiles (detachNode c rest k))) +
                    ↑(collectFiles node) := by rw [hset]
              _ = ↑(collectFilesCM ch) +
                    (↑(collectFiles (detachNode c rest k)) + ↑(collectFiles node)) := by
                    abel
              _ = ↑(collectFilesCM ch) + ↑(collectFiles c) := by rw [hsub]
          exact add_right_cancel h2
        rw [add_assoc, hcancel]

theorem findNodeSegs_detach {segs : List Str} {k : Str} {root node : DirectoryNode}
    (hwf : treeWf root = true) (h : findNodeSegs root (segs ++ [k]) = some node) :
    findNodeSegs (detachNode root segs k) (segs ++ [k]) = none := by
  induction segs generalizing root with
  | nil =>
    rw [detachNode_nil, List.nil_append]
    rw [treeWf_children] at hwf
    simp only [findNodeSegs_cons, DirectoryNode.children_mk,
      cmLookup_cmErase_self hwf]
  | cons seg rest ih =>
    rw [List.cons_append, findNodeSegs_cons] at h
    cases hl : cmLookup root.children seg with
    | none =>
      rw [hl] at h
      cases h
    | some c =>
      rw [hl] at h
      simp only [] at h
      rw [treeWf_children] at hwf
      have hwfc := (treeWf_of_cmLookup hwf hl).1
      rw [detachNode_cons]
      simp only [hl]
      simp only [List.cons_append, findNodeSegs_cons, DirectoryNode.children_mk,
        cmLookup_cmSet_self]
      exact ih hwfc h

theorem treeWf_detachNode {segs : List Str} {k : Str} {p : DirectoryNode}
    (hwf : treeWf p = true) : treeWf (detachNode p segs k) = true := by
  induction segs generalizing p with
  | nil =>
    rw [detachNode_nil, treeWf_mk]
    rw [treeWf_children] at hwf
    exact treeWfCM_cmErase hwf
  | cons seg rest ih =>
    rw [detachNode_cons]
    cases hl : cmLookup p.children seg with
    | none =>
      simp only []
      exact hwf
    | some c =>
      simp only []
      rw [treeWf_mk]
      rw [treeWf_children] at hwf
      obtain ⟨hwfc, hcname⟩ := treeWf_of_cmLookup hwf hl
      refine treeWfCM_cmSet hwf ?_ (ih hwfc)
      rw [detachNode_name]
      exact hcname

theorem mem_collect_of_findNodeSegs {segs : List Str} {root node : DirectoryNode}
    (h : findNodeSegs root segs = some node) {r : FileMetadata}
    (hr : r ∈ collectFiles node) : r ∈ collectFiles root := by
  induction segs generalizing root with
  | nil =>
    rw [findNodeSegs_nil] at h
    have : root = node := by injection h
    subst this
    exact hr
  | cons seg rest ih =>
    rw [findNodeSegs_cons] at h
    cases root with
    | mk n d f ch =>
      simp only [DirectoryNode.children_mk] at h
      cases hl : cmLookup ch seg with
      | none =>
        rw [hl] at h
        cases h
      | some c =>
        rw [hl] at h
        simp only [] at h
        rw [collectFiles_mk, List.mem_append]
        exact Or.inr (mem_collectCM_of_lookup hl (ih h))

/-! ## Sorting, deduplication, and the size-range scan -/

theorem mem_sortIds {l : List Nat} {x : Nat} : x ∈ sortIds l ↔ x ∈ l :=
  (List.perm_insertionSort (· ≤ ·) l).mem_iff

theorem sorted_sortIds (l : List Nat) : List.Sorted (· ≤ ·) (sortIds l) :=
  List.sorted_insertionSort (· ≤ ·) l

theorem mem_dedupAdj {l : List Nat} {x : Nat} : x ∈ dedupAdj l ↔ x ∈ l := by
  induction l with
  | nil => simp [dedupAdj]
  | cons a tail ih =>
    cases tail with
    | nil => simp [dedupAdj]
    | cons b rest =>
      rw [dedupAdj]
      by_cases hab : a = b
      · rw [if_pos hab, ih]
        subst hab
        simp [List.mem_cons]
      · rw [if_neg hab]
        simp only [List.mem_cons] at ih ⊢
        rw [ih]

theorem pairwise_lt_dedupAdj {l : List Nat} (hs : List.Sorted (· ≤ ·) l) :
    (dedupAdj l).Pairwise (· < ·) := by
  induction l with
  | nil => simp [dedupAdj]
  | cons a tail ih =>
    cases tail with
    | nil => simp [dedupAdj]
    | cons b rest =>
      rw [List.sorted_cons] at hs
      obtain ⟨ha, hbs⟩ := hs
      rw [dedupAdj]
      by_cases hab : a = b
      · rw [if_pos hab]
        exact ih hbs
      · rw [if_neg hab]
        refine List.Pairwise.cons ?_ (ih hbs)
        intro y hy
        rw [mem_dedupAdj] at hy
        have hay : a ≤ y := ha y hy
        rw [List.mem_cons] at hy
        rcases hy with rfl | hy
        · omega
        · have hby : b ≤ y := (List.sorted_cons.mp hbs).1 y hy
          have hab2 : a ≤ b := ha b (List.mem_cons_self _ _)
          omega

theorem scanIter_eq (suffix : List (Int × List Nat)) (pos upper : Nat)
    (h1 : pos ≤ upper) (h2 : upper ≤ pos + suffix.length) :
    scanIter suffix pos upper =
      some (((suffix.take (upper - pos)).map Prod.snd).flatten) := by
  induction suffix generalizing pos with
  | nil =>
    simp only [List.length_nil, Nat.add_zero] at h2
    have : pos = upper := le_antisymm h1 h2
    rw [scanIter, if_pos this]
    simp
  | cons e rest ih =>
    obtain ⟨k, l⟩ := e
    by_cases hpu : pos = upper
    · rw [scanIter, if_pos hpu]
      rw [hpu, Nat.sub_self]
      simp
    · have hlt : pos < upper := lt_of_le_of_ne h1 hpu
      rw [scanIter, if_neg hpu]
      rw [List.length_cons] at h2
      have h2' : upper ≤ (pos + 1) + rest.length := by omega
      rw [ih (pos + 1) hlt h2']
      have htake : upper - pos = (upper - (pos + 1)) + 1 := by omega
      rw [htake, List.take_succ_cons, Option.map_some', List.map_cons, List.flatten_cons]

theorem takeWhile_length_mono {α : Type} (p q : α → Bool)
    (hpq : ∀ x, p x = true → q x = true) (l : List α) :
    (l.takeWhile p).length ≤ (l.takeWhile q).length := by
  induction l with
  | nil => simp
  | cons a rest ih =>
    rw [List.takeWhile_cons, List.takeWhile_cons]
    cases hp : p a with
    | false => simp
    | true =>
      have hq := hpq a hp
      simp only [hq, if_true]
      simp only [List.length_cons]
      omega

theorem lowerBoundPos_le_upperBoundPos (m : List (Int × List Nat)) {minS maxS : Int}
    (h : minS ≤ maxS) : lowerBoundPos m minS ≤ upperBoundPos m maxS := by
  refine takeWhile_length_mono _ _ ?_ m
  intro e he
  simp only [decide_eq_true_eq] at he ⊢
  omega

theorem upperBoundPos_le_length (m : List (Int × List Nat)) (maxS : Int) :
    upperBoundPos m maxS ≤ m.length := by
  unfold upperBoundPos
  induction m with
  | nil => simp
  | cons e rest ih =>
    rw [List.takeWhile_cons]
    cases hd : decide (e.1 ≤ maxS) with
    | false => simp
    | true =>
      simp only [if_true]
      simp only [List.length_cons, List.length_cons]
      omega

theorem lowerBoundPos_cons (k₀ : Int) (l₀ : List Nat) (rest : List (Int × List Nat))
    (minS : Int) :
    lowerBoundPos ((k₀, l₀) :: rest) minS =
      if k₀ < minS then lowerBoundPos rest minS + 1 else 0 := by
  unfold lowerBoundPos
  rw [List.takeWhile_cons]
  by_cases hk : k₀ < minS
  · simp [hk]
  · simp [hk]

theorem upperBoundPos_cons (k₀ : Int) (l₀ : List Nat) (rest : List (Int × List Nat))
    (maxS : Int) :
    upperBoundPos ((k₀, l₀) :: rest) maxS =
      if k₀ ≤ maxS then upperBoundPos rest maxS + 1 else 0 := by
  unfold upperBoundPos
  rw [List.takeWhile_cons]
  by_cases hk : k₀ ≤ maxS
  · simp [hk]
  · simp [hk]

theorem lowerBoundPos_eq_zero {m : List (Int × List Nat)} {minS : Int}
    (h : ∀ e ∈ m, ¬ e.1 < minS) : lowerBoundPos m minS = 0 := by
  cases m with
  | nil => rfl
  | cons e rest =>
    rw [lowerBoundPos_cons e.1 e.2 rest]
    · rw [if_neg (h e (List.mem_cons_self _ _))]

theorem mem_window {m : List (Int × List Nat)} {minS maxS : Int}
    {e : Int × List Nat}
    (hm : (m.map Prod.fst).Pairwise (· < ·)) (hmm : minS ≤ maxS) :
    e ∈ (m.drop (lowerBoundPos m minS)).take
        (upperBoundPos m maxS - lowerBoundPos m minS) ↔
      e ∈ m ∧ minS ≤ e.1 ∧ e.1 ≤ maxS := by
  induction m with
  | nil => simp
  | cons e₀ rest ih =>
    obtain ⟨k₀, l₀⟩ := e₀
    simp only [List.map_cons, List.pairwise_cons] at hm
    obtain ⟨hk₀, hrest⟩ := hm
    rw [lowerBoundPos_cons, upperBoundPos_cons]
    by_cases hk1 : k₀ < minS
    · have hk2 : k₀ ≤ maxS := by omega
      rw [if_pos hk1, if_pos hk2]
      have hshift : lowerBoundPos rest minS + 1 = (lowerBoundPos rest minS).succ := rfl
      rw [List.drop_succ_cons,
        show upperBoundPos rest maxS + 1 - (lowerBoundPos rest minS + 1) =
          upperBoundPos rest maxS - lowerBoundPos rest minS from by omega,
        ih hrest]
      simp only [List.mem_cons]
      constructor
      · rintro ⟨he, hb⟩
        exact ⟨Or.inr he, hb⟩
      · rintro ⟨he | he, hb⟩
        · exfalso
          rw [he] at hb
          simp only [] at hb
          omega
        · exact ⟨he, hb⟩
    · rw [if_neg hk1]
      have hlr : lowerBoundPos rest minS = 0 := by
        refine lowerBoundPos_eq_zero ?_
        intro e2 he2
        have : k₀ < e2.1 := hk₀ e2.1 (List.mem_map_of_mem Prod.fst he2)
        omega
      by_cases hk2 : k₀ ≤ maxS
      · rw [if_pos hk2]
        rw [List.drop_zero, Nat.sub_zero, List.take_succ_cons]
        have hwin := ih hrest
        rw [hlr, List.drop_zero, Nat.sub_zero] at hwin
        simp only [List.mem_cons]
        constructor
        · rintro (rfl | he)
          · refine ⟨Or.inl rfl, ?_, ?_⟩
            · simp only []
              omega
            · simp only []
              exact hk2
          · obtain ⟨he2, hb⟩ := hwin.mp he
            exact ⟨Or.inr he2, hb⟩
        · rintro ⟨rfl | he, hb⟩
          · exact Or.inl rfl
          · exact Or.inr (hwin.mpr ⟨he, hb⟩)
      · rw [if_neg hk2]
        rw [List.drop_zero, Nat.zero_sub, List.take_zero]
        simp only [List.not_mem_nil, false_iff, List.mem_cons]
        rintro ⟨rfl | he, hb⟩
        · simp only [] at hb
          omega
        · have : k₀ < e.1 := hk₀ e.1 (List.mem_map_of_mem Prod.fst he)
          omega

theorem queryBySizeRange_spec (idx : InvertedIndex) {minS maxS : Int}
    (hs : (idx.sizeIndex.map Prod.fst).Pairwise (· < ·)) (hmm : minS ≤ maxS) :
    ∃ ids, idx.queryBySizeRange minS maxS = some ids ∧
      ids.Pairwise (· < ·) ∧
      ∀ x, x ∈ ids ↔ ∃ e ∈ idx.sizeIndex, minS ≤ e.1 ∧ e.1 ≤ maxS ∧ x ∈ e.2 := by
  have h1 : lowerBoundPos idx.sizeIndex minS ≤ upperBoundPos idx.sizeIndex maxS :=
    lowerBoundPos_le_upperBoundPos idx.sizeIndex hmm
  have hlen : upperBoundPos idx.sizeIndex maxS ≤ idx.sizeIndex.length :=
    upperBoundPos_le_length idx.sizeIndex maxS
  have h2 : upperBoundPos idx.sizeIndex maxS ≤
      lowerBoundPos idx.sizeIndex minS + (idx.sizeIndex.drop (lowerBoundPos idx.sizeIndex minS)).length := by
    rw [List.length_drop]
    omega
  have hscan := scanIter_eq (idx.sizeIndex.drop (lowerBoundPos idx.sizeIndex minS))
    (lowerBoundPos idx.sizeIndex minS) (upperBoundPos idx.sizeIndex maxS) h1 h2
  refine ⟨dedupAdj (sortIds
    ((((idx.sizeIndex.drop (lowerBoundPos idx.sizeIndex minS)).take
      (upperBoundPos idx.sizeIndex maxS - lowerBoundPos idx.sizeIndex minS)).map
        Prod.snd).flatten)), ?_, ?_, ?_⟩
  · unfold InvertedIndex.queryBySizeRange
    simp only []
    rw [hscan]
    rfl
  · exact pairwise_lt_dedupAdj (sorted_sortIds _)
  · intro x
    rw [mem_dedupAdj, mem_sortIds, List.mem_flatten]
    constructor
    · rintro ⟨l, hl, hx⟩
      rw [List.mem_map] at hl
      obtain ⟨e, he, rfl⟩ := hl
      rw [mem_window hs hmm] at he
      exact ⟨e, he.1, he.2.1, he.2.2, hx⟩
    · rintro ⟨e, he, hb1, hb2, hx⟩
      refine ⟨e.2, ?_, hx⟩
      rw [List.mem_map]
      exact ⟨e, (mem_window hs hmm).mpr ⟨he, hb1, hb2⟩, rfl⟩

/-! ## Store invariant -/

/-- Well-formedness of the flat record table: every entry's record carries its
own key as `fileId`, and keys are unique (`unordered_map`). -/
def tableWf (t : List (Nat × FileMetadata)) : Prop :=
  (∀ en ∈ t, en.2.fileId = en.1) ∧ (t.map Prod.fst).Nodup

/-- Well-formedness of one attribute index: posting lists are strictly
sorted, never empty (empty lists are erased), and keys are unique. -/
def idxWf {K : Type} [DecidableEq K] (m : List (K × List Nat)) : Prop :=
  (∀ e ∈ m, e.2.Pairwise (· < ·)) ∧ (∀ e ∈ m, e.2 ≠ []) ∧ (m.map Prod.fst).Nodup

/-- Soundness: every identifier in a posting list belongs to a table record
whose attribute value is the list's key. -/
def idxSound {K : Type} [DecidableEq K] (m : List (K × List Nat))
    (attr : FileMetadata → K) (t : List (Nat × FileMetadata)) : Prop :=
  ∀ e ∈ m, ∀ i ∈ e.2, ∃ en ∈ t, en.1 = i ∧ attr en.2 = e.1

/-- Completeness: every table record's identifier is in the posting list of
its own attribute value. -/
def idxComplete {K : Type} [DecidableEq K] (m : List (K × List Nat))
    (attr : FileMetadata → K) (t : List (Nat × FileMetadata)) : Prop :=
  ∀ en ∈ t, en.1 ∈ alistGetD m (attr en.2) []

def idxOk {K : Type} [DecidableEq K] (m : List (K × List Nat))
    (attr : FileMetadata → K) (t : List (Nat × FileMetadata)) : Prop :=
  idxWf m ∧ idxSound m attr t ∧ idxComplete m attr t

/-- The joint invariant of every reachable simulator state. -/
def StoreInv (s : FileSystemSimulator) : Prop :=
  tableWf s.fileMetadataMap ∧
  (∀ en ∈ s.fileMetadataMap, en.1 < s.nextFileId) ∧
  idxOk s.invertedIndex.extensionIndex (fun r => r.extension) s.fileMetadataMap ∧
  idxOk s.invertedIndex.sizeIndex (fun r => r.fileSize) s.fileMetadataMap ∧
  idxOk s.invertedIndex.ownerIndex (fun r => r.owner) s.fileMetadataMap ∧
  idxOk s.invertedIndex.timeIndex (fun r => r.createTime) s.fileMetadataMap ∧
  (s.invertedIndex.sizeIndex.map Prod.fst).Pairwise (· < ·) ∧
  treeWf s.root = true ∧
  s.root.isDirectory = true ∧
  (∀ r ∈ collectFiles s.root, (r.fileId, r) ∈ s.fileMetadataMap) ∧
  ((collectFiles s.root).map FileMetadata.fileId).Nodup

theorem alistGetD_pairwise {K : Type} [DecidableEq K]
    {m : List (K × List Nat)} (hs : ∀ e ∈ m, e.2.Pairwise (· < ·)) (k : K) :
    (alistGetD m k []).Pairwise (· < ·) := by
  induction m with
  | nil => simp
  | cons e rest ih =>
    obtain ⟨k₀, l₀⟩ := e
    rw [alistGetD_cons]
    by_cases h : k = k₀
    · rw [if_pos h]
      exact hs (k₀, l₀) (List.mem_cons_self _ _)
    · rw [if_neg h]
      exact ih fun e he => hs e (List.mem_cons_of_mem _ he)

theorem table_entry_unique {t : List (Nat × FileMetadata)} {k : Nat}
    {v1 v2 : FileMetadata} (hn : (t.map Prod.fst).Nodup)
    (h1 : (k, v1) ∈ t) (h2 : (k, v2) ∈ t) : v1 = v2 := by
  have e1 := alistLookup_eq_some_of_mem hn h1
  have e2 := alistLookup_eq_some_of_mem hn h2
  rw [e1] at e2
  injection e2

theorem ensureAttach_isDirectory (node : DirectoryNode) (segs : List Str)
    (name : Str) (child : DirectoryNode) :
    (ensureAttach node segs name child).isDirectory = node.isDirectory := by
  cases segs with
  | nil => rfl
  | cons seg rest => rfl

theorem detachNode_isDirectory (p : DirectoryNode) (segs : List Str) (nodeName : Str) :
    (detachNode p segs nodeName).isDirectory = p.isDirectory := by
  cases segs with
  | nil => rfl
  | cons seg rest =>
    rw [detachNode_cons]
    cases hl : cmLookup p.children seg with
    | none => rfl
    | some c => rfl

theorem mem_collect_self {node : DirectoryNode} {fd : FileMetadata}
    (hd : node.isDirectory = false) (hf : node.fileData = some fd) :
    fd ∈ collectFiles node := by
  cases node with
  | mk n d f ch =>
    simp only [DirectoryNode.isDirectory_mk] at hd
    simp only [DirectoryNode.fileData_mk] at hf
    subst hd
    subst hf
    rw [collectFiles_mk]
    exact List.mem_append_left _ (List.mem_singleton.mpr rfl)

theorem findFileNode_some_valid {s : FileSystemSimulator} {p : Str}
    {node : DirectoryNode} (h : s.findFileNode p = some node) :
    ∃ rest, p = '/' :: rest := by
  cases p with
  | nil => cases h
  | cons c rest =>
    by_cases hc : c = '/'
    · exact ⟨rest, by rw [hc]⟩
    · rw [FileSystemSimulator.findFileNode, if_neg hc] at h
      cases h

theorem findFileNode_cons_slash (s : FileSystemSimulator) (rest : Str) :
    s.findFileNode ('/' :: rest) = findNodeSegs s.root (pathSegs ('/' :: rest)) := by
  rw [FileSystemSimulator.findFileNode, if_pos rfl]

theorem alistSet_mem_self {K α : Type} [DecidableEq K]
    {m : List (K × α)} {k : K} {v : α} : (k, v) ∈ alistSet m k v := by
  induction m with
  | nil => exact List.mem_singleton.mpr rfl
  | cons e rest ih =>
    obtain ⟨k₀, v₀⟩ := e
    by_cases h : k = k₀
    · rw [alistSet]
      rw [if_pos h]
      rw [h]
      exact List.mem_cons_self _ _
    · rw [alistSet]
      rw [if_neg h]
      exact List.mem_cons_of_mem _ ih

theorem mem_alistSet_of_ne {K α : Type} [DecidableEq K]
    {m : List (K × α)} {k : K} {v : α} {e : K × α}
    (he : e ∈ m) (hne : e.1 ≠ k) : e ∈ alistSet m k v := by
  induction m with
  | nil => cases he
  | cons e₀ rest ih =>
    obtain ⟨k₀, v₀⟩ := e₀
    rw [List.mem_cons] at he
    rw [alistSet]
    by_cases h : k = k₀
    · rw [if_pos h]
      rcases he with rfl | he
      · exact absurd h.symm hne
      · exact List.mem_cons_of_mem _ he
    · rw [if_neg h]
      rcases he with rfl | he
      · exact List.mem_cons_self _ _
      · exact List.mem_cons_of_mem _ (ih he)

theorem idxOk_add {K : Type} [DecidableEq K] {m m' : List (K × List Nat)}
    {attr : FileMetadata → K} {t : List (Nat × FileMetadata)} {fd : FileMetadata}
    (hok : idxOk m attr t)
    (hfresh : ∀ en ∈ t, en.1 < fd.fileId)
    (hgetD : ∀ k', alistGetD m' k' [] =
      if k' = attr fd then addFileId (alistGetD m (attr fd) []) fd.fileId
      else alistGetD m k' [])
    (hment : ∀ e ∈ m', e ∈ m ∨
      (e.1 = attr fd ∧ e.2 = addFileId (alistGetD m (attr fd) []) fd.fileId))
    (hkeys : (m'.map Prod.fst).Nodup) :
    idxOk m' attr (alistSet t fd.fileId fd) := by
  obtain ⟨⟨hsorted, hnil, _⟩, hsound, hcomplete⟩ := hok
  refine ⟨⟨?_, ?_, hkeys⟩, ?_, ?_⟩
  · intro e he
    rcases hment e he with h | h
    · exact hsorted e h
    · rw [h.2]
      exact pairwise_addFileId (alistGetD_pairwise hsorted _)
  · intro e he
    rcases hment e he with h | h
    · exact hnil e h
    · rw [h.2]
      exact addFileId_ne_nil
  · intro e he i hi
    rcases hment e he with h | h
    · obtain ⟨en, hen, heni, hena⟩ := hsound e h i hi
      have : en.1 ≠ fd.fileId := by
        have := hfresh en hen; omega
      exact ⟨en, mem_alistSet_of_ne hen this, heni, hena⟩
    · rw [h.2] at hi
      rcases mem_addFileId.mp hi with rfl | hi
      · refine ⟨(fd.fileId, fd), alistSet_mem_self, rfl, ?_⟩
        rw [h.1]
      · obtain ⟨l, hl, hil⟩ := mem_alistGetD hi
        obtain ⟨en, hen, heni, hena⟩ := hsound (attr fd, l) hl i hil
        have : en.1 ≠ fd.fileId := by
          have := hfresh en hen; omega
        refine ⟨en, mem_alistSet_of_ne hen this, heni, ?_⟩
        rw [hena, h.1]
  · intro en hen
    rcases mem_alistSet hen with h | h
    · have hold := hcomplete en h
      rw [hgetD (attr en.2)]
      by_cases hattr : attr en.2 = attr fd
      · rw [if_pos hattr]
        rw [hattr] at hold
        exact mem_addFileId.mpr (Or.inr hold)
      · rw [if_neg hattr]
        exact hold
    · subst h
      rw [hgetD]
      simp only [if_pos rfl]
      exact mem_addFileId.mpr (Or.inl rfl)

theorem idxOk_remove {K : Type} [DecidableEq K] {m : List (K × List Nat)}
    {attr : FileMetadata → K} {t : List (Nat × FileMetadata)} {fd : FileMetadata}
    (hok : idxOk m attr t) (htw : tableWf t) (hfd : (fd.fileId, fd) ∈ t) :
    idxOk (idxRemove m (attr fd) fd.fileId) attr (alistErase t fd.fileId) := by
  obtain ⟨⟨hsorted, hnil, hkeys⟩, hsound, hcomplete⟩ := hok
  have hkeys' : ((idxRemove m (attr fd) fd.fileId).map Prod.fst).Nodup :=
    hkeys.sublist (idxRemove_keys_sublist m (attr fd) fd.fileId)
  refine ⟨⟨?_, idxRemove_ne_nil hnil, hkeys'⟩, ?_, ?_⟩
  · intro e he
    obtain ⟨e2, he2, _, hsnd⟩ := mem_idxRemove he
    rcases hsnd with h | h
    · rw [h]; exact hsorted e2 he2
    · rw [h]; exact pairwise_removeFileId (hsorted e2 he2)
  · intro e he i hi
    have hegetD := alistGetD_of_mem hkeys' he
    rw [alistGetD_idxRemove hkeys e.1] at hegetD
    by_cases hek : e.1 = attr fd
    · rw [if_pos hek] at hegetD
      rw [← hegetD] at hi
      have hgds : (alistGetD m (attr fd) []).Pairwise (· < ·) :=
        alistGetD_pairwise hsorted _
      obtain ⟨hi2, hine⟩ := (mem_removeFileId hgds).mp hi
      obtain ⟨l, hl, hil⟩ := mem_alistGetD hi2
      obtain ⟨en, hen, heni, hena⟩ := hsound (attr fd, l) hl i hil
      have : en.1 ≠ fd.fileId := by
        rw [heni]; exact hine
      refine ⟨en, mem_alistErase_of_ne hen this, heni, ?_⟩
      rw [hena, hek]
    · rw [if_neg hek] at hegetD
      rw [← hegetD] at hi
      obtain ⟨l, hl, hil⟩ := mem_alistGetD hi
      obtain ⟨en, hen, heni, hena⟩ := hsound (e.1, l) hl i hil
      have hine : en.1 ≠ fd.fileId := by
        intro heq
        have hent : en.2 = fd := by
          have h1 : (fd.fileId, en.2) ∈ t := by
            rw [← heq]
            exact (Prod.mk.eta (p := en)) ▸ hen
          exact table_entry_unique htw.2 h1 hfd
        rw [hent] at hena
        exact hek hena.symm
      exact ⟨en, mem_alistErase_of_ne hen hine, heni, hena⟩
  · intro en hen
    have hent := mem_of_mem_alistErase hen
    have hne : en.1 ≠ fd.fileId := by
      intro heq
      have hmm : en.1 ∈ (alistErase t fd.fileId).map Prod.fst :=
        List.mem_map_of_mem Prod.fst hen
      rw [heq] at hmm
      exact not_mem_keys_alistErase htw.2 hmm
    have hold := hcomplete en hent
    rw [alistGetD_idxRemove hkeys (attr en.2)]
    by_cases hattr : attr en.2 = attr fd
    · rw [if_pos hattr]
      rw [hattr] at hold
      have hgds : (alistGetD m (attr fd) []).Pairwise (· < ·) :=
        alistGetD_pairwise hsorted _
      exact (mem_removeFileId hgds).mpr ⟨hold, hne⟩
    · rw [if_neg hattr]
      exact hold

theorem addFile_invalid (s : FileSystemSimulator) (path fileName extension : Str)
    (fileSize : Int) (owner createTime : Str)
    (h : path = [] ∨ path.head? ≠ some '/') :
    s.addFile path fileName extension fileSize owner createTime = (false, s) := by
  cases path with
  | nil => rfl
  | cons c rest =>
    rcases h with h | h
    · cases h
    · have hc : c ≠ '/' := by
        intro he
        rw [he] at h
        exact h rfl
      rw [FileSystemSimulator.addFile, if_neg hc]

theorem addFile_cons_slash (s : FileSystemSimulator) (rest fileName extension : Str)
    (fileSize : Int) (owner createTime : Str) :
    s.addFile ('/' :: rest) fileName extension fileSize owner createTime =
      (true,
        { root := ensureAttach s.root (pathSegs ('/' :: rest)) fileName
            (.mk fileName false
              (some ⟨s.nextFileId, fileName, extension, fileSize, owner, createTime,
                ('/' :: rest) ++
                  (if ('/' :: rest).getLast? = some '/' then [] else ['/']) ++ fileName⟩)
              .nil)
          fileMetadataMap := alistSet s.fileMetadataMap s.nextFileId
            ⟨s.nextFileId, fileName, extension, fileSize, owner, createTime,
              ('/' :: rest) ++
                (if ('/' :: rest).getLast? = some '/' then [] else ['/']) ++ fileName⟩
          invertedIndex := s.invertedIndex.addFile
            ⟨s.nextFileId, fileName, extension, fileSize, owner, createTime,
              ('/' :: rest) ++
                (if ('/' :: rest).getLast? = some '/' then [] else ['/']) ++ fileName⟩
          nextFileId := s.nextFileId + 1 }) := by
  rw [FileSystemSimulator.addFile, if_pos rfl]

theorem storeInv_add_general {s : FileSystemSimulator} (hinv : StoreInv s)
    (fd : FileMetadata) (hfdid : fd.fileId = s.nextFileId) (σ : List Str) :
    StoreInv { root := ensureAttach s.root σ fd.fileName (.mk fd.fileName false (some fd) .nil)
               fileMetadataMap := alistSet s.fileMetadataMap fd.fileId fd
               invertedIndex := s.invertedIndex.addFile fd
               nextFileId := s.nextFileId + 1 } := by
  obtain ⟨htw, hnext, hext, hsize, howner, htime, hskeys, hwf, hrootd, hts, hnodup⟩ := hinv
  have hfresh : ∀ en ∈ s.fileMetadataMap, en.1 < fd.fileId := by
    intro en hen
    have := hnext en hen
    omega
  have hfileNode : collectFiles (.mk fd.fileName false (some fd) .nil) = [fd] := rfl
  have hperm : ∃ dropped,
      ((collectFiles (ensureAttach s.root σ fd.fileName
          (.mk fd.fileName false (some fd) .nil))) ++ dropped).Perm
        (collectFiles s.root ++ [fd]) ∧
      ∀ r ∈ dropped, r ∈ collectFiles s.root := by
    cases hov : findNodeSegs s.root (σ ++ [fd.fileName]) with
    | none =>
      refine ⟨[], ?_, by intro r hr; cases hr⟩
      rw [List.append_nil]
      have := @ensure_perm_none _ _ _ (.mk fd.fileName false (some fd) .nil) hov
      rw [hfileNode] at this
      exact this
    | some old =>
      refine ⟨collectFiles old, ?_, ?_⟩
      · have := @ensure_perm_some _ _ _ _ (.mk fd.fileName false (some fd) .nil) hov
        rw [hfileNode] at this
        exact this
      · intro r hr
        exact mem_collect_of_findNodeSegs hov hr
  obtain ⟨dropped, hperm, hdropped⟩ := hperm
  have htw' : tableWf (alistSet s.fileMetadataMap fd.fileId fd) := by
    constructor
    · intro en hen
      rcases mem_alistSet hen with h | h
      · exact htw.1 en h
      · rw [h]
    · have hfid : fd.fileId ∉ s.fileMetadataMap.map Prod.fst := by
        intro hmem
        rw [List.mem_map] at hmem
        obtain ⟨en, hen, heq⟩ := hmem
        have := hfresh en hen
        omega
      rw [alistSet_of_not_mem_keys hfid, List.map_append, List.nodup_append]
      refine ⟨htw.2, List.nodup_singleton _, ?_⟩
      intro x hx hx2
      rw [List.mem_map] at hx
      obtain ⟨en, hen, heq⟩ := hx
      simp only [List.map_cons, List.map_nil, List.mem_singleton] at hx2
      have := hfresh en hen
      omega
  refine ⟨htw', ?_, ?_, ?_, ?_, ?_, ?_, ?_, ?_, ?_, ?_⟩
  · intro en hen
    show en.1 < s.nextFileId + 1
    rcases mem_alistSet hen with h | h
    · have := hnext en h
      omega
    · rw [h]
      simp only []
      omega
  · exact idxOk_add hext hfresh (alistGetD_umapAdd _ _ _)
      (fun e he => mem_umapAdd he) (umapAdd_keys_nodup hext.1.2.2)
  · exact idxOk_add hsize hfresh (alistGetD_sizeAdd hskeys)
      (fun e he => mem_sizeAdd hskeys he) ((sizeAdd_keys_pairwise hskeys).imp ne_of_lt)
  · exact idxOk_add howner hfresh (alistGetD_umapAdd _ _ _)
      (fun e he => mem_umapAdd he) (umapAdd_keys_nodup howner.1.2.2)
  · exact idxOk_add htime hfresh (alistGetD_umapAdd _ _ _)
      (fun e he => mem_umapAdd he) (umapAdd_keys_nodup htime.1.2.2)
  · exact sizeAdd_keys_pairwise hskeys
  · exact treeWf_ensureAttach hwf rfl rfl
  · rw [ensureAttach_isDirectory]
    exact hrootd
  · intro r hr
    have hr2 := hperm.mem_iff.mp (List.mem_append_left _ hr)
    rw [List.mem_append, List.mem_singleton] at hr2
    rcases hr2 with h | h
    · have := hts r h
      have hne : r.fileId ≠ fd.fileId := by
        have h2 := hnext (r.fileId, r) this
        omega
      exact mem_alistSet_of_ne this hne
    · rw [h]
      exact alistSet_mem_self
  · have hids : ((collectFiles (ensureAttach s.root σ fd.fileName
        (.mk fd.fileName false (some fd) .nil))).map FileMetadata.fileId ++
        dropped.map FileMetadata.fileId).Perm
        ((collectFiles s.root).map FileMetadata.fileId ++ [fd.fileId]) := by
      have := hperm.map FileMetadata.fileId
      rw [List.map_append, List.map_append] at this
      exact this
    have hrhs : (((collectFiles s.root).map FileMetadata.fileId) ++ [fd.fileId]).Nodup := by
      rw [List.nodup_append]
      refine ⟨hnodup, List.nodup_singleton _, ?_⟩
      intro x hx hx2
      rw [List.mem_map] at hx
      obtain ⟨r, hr, heq⟩ := hx
      rw [List.mem_singleton] at hx2
      have := hnext (r.fileId, r) (hts r hr)
      omega
    have hlhs := (hids.nodup_iff).mpr hrhs
    exact (List.nodup_append.mp hlhs).1

theorem storeInv_addFile (s : FileSystemSimulator) (path fileName extension : Str)
    (fileSize : Int) (owner createTime : Str) (hinv : StoreInv s) :
    StoreInv (s.addFile path fileName extension fileSize owner createTime).2 := by
  cases path with
  | nil => exact hinv
  | cons c rest =>
    by_cases hc : c = '/'
    · subst hc
      rw [addFile_cons_slash]
      exact storeInv_add_general hinv
        ⟨s.nextFileId, fileName, extension, fileSize, owner, createTime,
          ('/' :: rest) ++
            (if ('/' :: rest).getLast? = some '/' then [] else ['/']) ++ fileName⟩
        rfl (pathSegs ('/' :: rest))
    · rw [addFile_invalid s (c :: rest) fileName extension fileSize owner createTime
        (Or.inr (by simp [hc]))]
      exact hinv

theorem storeInv_remove_general {s : FileSystemSimulator} (hinv : StoreInv s)
    {σ : List Str} {k : Str} {node : DirectoryNode} {fd : FileMetadata}
    (hfind : findNodeSegs s.root (σ ++ [k]) = some node)
    (hdir : node.isDirectory = false) (hfd : node.fileData = some fd) :
    StoreInv { root := detachNode s.root σ k
               fileMetadataMap := alistErase s.fileMetadataMap fd.fileId
               invertedIndex := s.invertedIndex.removeFile fd
               nextFileId := s.nextFileId } := by
  obtain ⟨htw, hnext, hext, hsize, howner, htime, hskeys, hwf, hrootd, hts, hnodup⟩ := hinv
  have hfdroot : fd ∈ collectFiles s.root :=
    mem_collect_of_findNodeSegs hfind (mem_collect_self hdir hfd)
  have hfdmem : (fd.fileId, fd) ∈ s.fileMetadataMap := hts fd hfdroot
  have hdp := detach_perm hwf hfind
  have hidsperm : ((collectFiles (detachNode s.root σ k)).map FileMetadata.fileId ++
      (collectFiles node).map FileMetadata.fileId).Perm
      ((collectFiles s.root).map FileMetadata.fileId) := by
    have := hdp.map FileMetadata.fileId
    rw [List.map_append] at this
    exact this
  have hidsnodup := hidsperm.nodup_iff.mpr hnodup
  rw [List.nodup_append] at hidsnodup
  obtain ⟨hnd1, hnd2, hdisj⟩ := hidsnodup
  refine ⟨⟨?_, ?_⟩, ?_, ?_, ?_, ?_, ?_, ?_, ?_, ?_, ?_, ?_⟩
  · intro en hen
    exact htw.1 en (mem_of_mem_alistErase hen)
  · exact htw.2.sublist (alistErase_keys_sublist _ _)
  · intro en hen
    exact hnext en (mem_of_mem_alistErase hen)
  · exact idxOk_remove hext htw hfdmem
  · exact idxOk_remove hsize htw hfdmem
  · exact idxOk_remove howner htw hfdmem
  · exact idxOk_remove htime htw hfdmem
  · exact hskeys.sublist (idxRemove_keys_sublist _ _ _)
  · exact treeWf_detachNode hwf
  · rw [detachNode_isDirectory]
    exact hrootd
  · intro r hr
    have hroot : r ∈ collectFiles s.root := hdp.mem_iff.mp (List.mem_append_left _ hr)
    have hmem := hts r hroot
    have hne : r.fileId ≠ fd.fileId := by
      intro heq
      have hrfd : r = fd := by
        refine table_entry_unique htw.2 hmem ?_
        rw [heq]
        exact hfdmem
      subst hrfd
      refine hdisj (a := r.fileId) ?_ ?_
      · exact List.mem_map_of_mem FileMetadata.fileId hr
      · exact List.mem_map_of_mem FileMetadata.fileId (mem_collect_self hdir hfd)
    exact mem_alistErase_of_ne hmem hne
  · exact hnd1

theorem storeInv_detach_general {s : FileSystemSimulator} (hinv : StoreInv s)
    {σ : List Str} {k : Str} {node : DirectoryNode}
    (hfind : findNodeSegs s.root (σ ++ [k]) = some node) :
    StoreInv { s with root := detachNode s.root σ k } := by
  obtain ⟨htw, hnext, hext, hsize, howner, htime, hskeys, hwf, hrootd, hts, hnodup⟩ := hinv
  have hdp := detach_perm hwf hfind
  have hidsperm : ((collectFiles (detachNode s.root σ k)).map FileMetadata.fileId ++
      (collectFiles node).map FileMetadata.fileId).Perm
      ((collectFiles s.root).map FileMetadata.fileId) := by
    have := hdp.map FileMetadata.fileId
    rw [List.map_append] at this
    exact this
  have hidsnodup := hidsperm.nodup_iff.mpr hnodup
  rw [List.nodup_append] at hidsnodup
  refine ⟨htw, hnext, hext, hsize, howner, htime, hskeys, ?_, ?_, ?_, ?_⟩
  · exact treeWf_detachNode hwf
  · rw [detachNode_isDirectory]
    exact hrootd
  · intro r hr
    exact hts r (hdp.mem_iff.mp (List.mem_append_left _ hr))
  · exact hidsnodup.1

theorem storeInv_removeFile (s : FileSystemSimulator) (p : Str) (hinv : StoreInv s) :
    StoreInv (s.removeFile p).2 := by
  cases hfind : s.findFileNode p with
  | none =>
    simp only [FileSystemSimulator.removeFile, hfind]
    exact hinv
  | some node =>
    obtain ⟨rest, hp⟩ := findFileNode_some_valid hfind
    by_cases hdir : node.isDirectory
    · simp only [FileSystemSimulator.removeFile, hfind, hdir, if_true]
      exact hinv
    · have hdir' : node.isDirectory = false := by
        cases h : node.isDirectory
        · rfl
        · exact absurd h hdir
      have hfind' : findNodeSegs s.root (pathSegs p) = some node := by
        rw [hp] at hfind ⊢
        rw [findFileNode_cons_slash] at hfind
        exact hfind
      cases hseg : pathSegs p with
      | nil =>
        rw [hseg, findNodeSegs_nil] at hfind'
        have hroot : s.root = node := by injection hfind'
        obtain ⟨_, _, _, _, _, _, _, _, hrootd, _, _⟩ := hinv
        rw [hroot, hdir'] at hrootd
        cases hrootd
      | cons a as =>
        have hcons : a :: as ≠ [] := List.cons_ne_nil a as
        have hdecomp : (a :: as).dropLast ++ [(a :: as).getLast hcons] = a :: as :=
          List.dropLast_append_getLast hcons
        have hfind2 : findNodeSegs s.root
            ((a :: as).dropLast ++ [(a :: as).getLast hcons]) = some node := by
          rw [hdecomp, ← hseg]
          exact hfind'
        have hwf : treeWf s.root = true := by
          obtain ⟨_, _, _, _, _, _, _, hwf, _, _, _⟩ := hinv
          exact hwf
        have hname : node.name = (a :: as).getLast hcons :=
          findNodeSegs_name hwf hfind2
        cases hfd : node.fileData with
        | none =>
          simp only [FileSystemSimulator.removeFile, hfind, hdir', hfd, hseg,
            Bool.false_eq_true, if_false]
          rw [hname]
          exact storeInv_detach_general hinv hfind2
        | some fd =>
          simp only [FileSystemSimulator.removeFile, hfind, hdir', hfd, hseg,
            Bool.false_eq_true, if_false]
          rw [hname]
          exact storeInv_remove_general hinv hfind2 hdir' hfd

theorem storeInv_init : StoreInv initSimulator := by
  refine ⟨?_, ?_, ?_, ?_, ?_, ?_, ?_, ?_, ?_, ?_, ?_⟩ <;>
    simp [initSimulator, StoreInv, tableWf, idxOk, idxWf, idxSound, idxComplete,
      treeWf, treeWfCM, collectFiles, collectFilesCM, alistGetD]

theorem storeInv_applyOp {s : FileSystemSimulator} (hinv : StoreInv s) (op : FsOp) :
    StoreInv (applyOp s op) := by
  cases op with
  | add p n e sz o t => exact storeInv_addFile s p n e sz o t hinv
  | remove p => exact storeInv_removeFile s p hinv

theorem storeInv_applyOpsFrom {s : FileSystemSimulator} (hinv : StoreInv s)
    (ops : List FsOp) : StoreInv (applyOpsFrom s ops) := by
  induction ops generalizing s with
  | nil => exact hinv
  | cons op rest ih => exact ih (storeInv_applyOp hinv op)

theorem storeInv_reach (ops : List FsOp) : StoreInv (reach ops) :=
  storeInv_applyOpsFrom storeInv_init ops

/-! ## The file-table / tree agreement invariant of safe runs -/

/-- Under a safe run the records reachable in the tree are exactly the table
entries, up to order. -/
def SafeInv (s : FileSystemSimulator) : Prop :=
  (collectFiles s.root).Perm (s.fileMetadataMap.map Prod.snd)

theorem safeInv_init : SafeInv initSimulator := List.Perm.refl []

theorem safeInv_addFile {s : FileSystemSimulator} (hinv : StoreInv s) (hs : SafeInv s)
    (path fileName extension : Str) (fileSize : Int) (owner createTime : Str)
    (hsafe : addSafe s path fileName = true) :
    SafeInv (s.addFile path fileName extension fileSize owner createTime).2 := by
  cases path with
  | nil => exact hs
  | cons c rest =>
    by_cases hc : c = '/'
    · subst hc
      rw [addFile_cons_slash]
      rw [addSafe, if_pos rfl, Option.isNone_iff_eq_none] at hsafe
      have hperm := @ensure_perm_none _ _ _
        (.mk fileName false
          (some ⟨s.nextFileId, fileName, extension, fileSize, owner, createTime,
            ('/' :: rest) ++
              (if ('/' :: rest).getLast? = some '/' then [] else ['/']) ++ fileName⟩)
          .nil) hsafe
      have hfresh : s.nextFileId ∉ s.fileMetadataMap.map Prod.fst := by
        intro hmem
        obtain ⟨en, hen, heq⟩ := List.mem_map.mp hmem
        have := hinv.2.1 en hen
        omega
      show (collectFiles (ensureAttach s.root (pathSegs ('/' :: rest)) fileName _)).Perm
        ((alistSet s.fileMetadataMap s.nextFileId _).map Prod.snd)
      rw [alistSet_of_not_mem_keys hfresh, List.map_append]
      exact hperm.trans (hs.append_right _)
    · rw [addFile_invalid s (c :: rest) fileName extension fileSize owner createTime
        (Or.inr (by simp [hc]))]
      exact hs

theorem safeInv_removeFile {s : FileSystemSimulator} (hinv : StoreInv s) (hs : SafeInv s)
    (p : Str) (hsafe : removeSafe s p = true) :
    SafeInv (s.removeFile p).2 := by
  cases hfind : s.findFileNode p with
  | none =>
    simp only [FileSystemSimulator.removeFile, hfind]
    exact hs
  | some node =>
    obtain ⟨rest, hp⟩ := findFileNode_some_valid hfind
    rw [removeSafe, hfind] at hsafe
    simp only [] at hsafe
    by_cases hdir : node.isDirectory
    · simp only [FileSystemSimulator.removeFile, hfind, hdir, if_true]
      exact hs
    · have hdir' : node.isDirectory = false := by
        cases h : node.isDirectory
        · rfl
        · exact absurd h hdir
      rw [hdir'] at hsafe
      have hch : node.children = .nil := by
        cases hc : node.children with
        | nil => rfl
        | cons k c r =>
          rw [hc] at hsafe
          simp at hsafe
      have hfind' : findNodeSegs s.root (pathSegs p) = some node := by
        rw [hp] at hfind ⊢
        rw [findFileNode_cons_slash] at hfind
        exact hfind
      have hwf : treeWf s.root = true := hinv.2.2.2.2.2.2.2.1
      cases hseg : pathSegs p with
      | nil =>
        rw [hseg, findNodeSegs_nil] at hfind'
        have hroot : s.root = node := by injection hfind'
        have hrootd := hinv.2.2.2.2.2.2.2.2.1
        rw [hroot, hdir'] at hrootd
        cases hrootd
      | cons a as =>
        have hcons : a :: as ≠ [] := List.cons_ne_nil a as
        have hdecomp : (a :: as).dropLast ++ [(a :: as).getLast hcons] = a :: as :=
          List.dropLast_append_getLast hcons
        have hfind2 : findNodeSegs s.root
            ((a :: as).dropLast ++ [(a :: as).getLast hcons]) = some node := by
          rw [hdecomp, ← hseg]
          exact hfind'
        have hname : node.name = (a :: as).getLast hcons :=
          findNodeSegs_name hwf hfind2
        have hdp := detach_perm hwf hfind2
        cases hfd : node.fileData with
        | none =>
          simp only [FileSystemSimulator.removeFile, hfind, hdir', hfd, hseg,
            Bool.false_eq_true, if_false]
          rw [hname]
          have hcoll : collectFiles node = [] := by
            cases node with
            | mk nn nd nf nch =>
              simp only [DirectoryNode.isDirectory_mk] at hdir'
              simp only [DirectoryNode.fileData_mk] at hfd
              simp only [DirectoryNode.children_mk] at hch
              subst hdir'; subst hfd; subst hch
              rfl
          rw [hcoll, List.append_nil] at hdp
          exact hdp.trans hs
        | some fd =>
          simp only [FileSystemSimulator.removeFile, hfind, hdir', hfd, hseg,
            Bool.false_eq_true, if_false]
          rw [hname]
          have hcoll : collectFiles node = [fd] := by
            cases node with
            | mk nn nd nf nch =>
              simp only [DirectoryNode.isDirectory_mk] at hdir'
              simp only [DirectoryNode.fileData_mk] at hfd
              simp only [DirectoryNode.children_mk] at hch
              subst hdir'; subst hfd; subst hch
              rfl
          rw [hcoll] at hdp
          have hmem : (fd.fileId, fd) ∈ s.fileMetadataMap :=
            hinv.2.2.2.2.2.2.2.2.2.1 fd
              (mem_collect_of_findNodeSegs hfind'
                (by rw [hcoll]; exact List.mem_singleton.mpr rfl))
          have hkeys : (s.fileMetadataMap.map Prod.fst).Nodup := hinv.1.2
          have hep := alistErase_perm hkeys hmem
          have hA : ((collectFiles (detachNode s.root (a :: as).dropLast
              ((a :: as).getLast hcons))) ++ [fd]).Perm
              ([fd] ++ (alistErase s.fileMetadataMap fd.fileId).map Prod.snd) := by
            refine hdp.trans (hs.trans ?_)
            have := hep.map Prod.snd
            simpa using this
          exact (List.perm_append_right_iff [fd]).mp
            (hA.trans List.perm_append_comm)

theorem safeInv_applyOp {s : FileSystemSimulator} (hinv : StoreInv s) (hs : SafeInv s)
    (op : FsOp) (hsafe : opSafe s op = true) : SafeInv (applyOp s op) := by
  cases op with
  | add p n e sz o t => exact safeInv_addFile hinv hs p n e sz o t hsafe
  | remove p => exact safeInv_removeFile hinv hs p hsafe

theorem safeInv_applyOpsFrom {s : FileSystemSimulator} (hinv : StoreInv s)
    (hs : SafeInv s) (ops : List FsOp) (hsafe : safeRunFrom s ops = true) :
    SafeInv (applyOpsFrom s ops) := by
  induction ops generalizing s with
  | nil => exact hs
  | cons op rest ih =>
    rw [safeRunFrom, Bool.and_eq_true] at hsafe
    exact ih (storeInv_applyOp hinv op) (safeInv_applyOp hinv hs op hsafe.1) hsafe.2

theorem safeInv_reach (ops : List FsOp) (hsafe : safeRunFrom initSimulator ops = true) :
    SafeInv (reach ops) :=
  safeInv_applyOpsFrom storeInv_init safeInv_init ops hsafe

/-! ## Query characterizations -/

theorem mem_resolveIds {t : List (Nat × FileMetadata)} {ids : List Nat}
    {r : FileMetadata} :
    r ∈ resolveIds t ids ↔ ∃ i ∈ ids, alistLookup t i = some r := by
  rw [resolveIds, List.mem_filterMap]

theorem nodup_resolveIds {t : List (Nat × FileMetadata)} {ids : List Nat}
    (htw : tableWf t) (hids : ids.Nodup) : (resolveIds t ids).Nodup := by
  induction ids with
  | nil => exact List.nodup_nil
  | cons i rest ih =>
    rw [List.nodup_cons] at hids
    rw [resolveIds, List.filterMap_cons]
    cases hl : alistLookup t i with
    | none => exact ih hids.2
    | some r =>
      rw [List.nodup_cons]
      refine ⟨?_, ih hids.2⟩
      intro hr
      rw [show List.filterMap (fun fileId => alistLookup t fileId) rest =
        resolveIds t rest from rfl, mem_resolveIds] at hr
      obtain ⟨j, hj, hlj⟩ := hr
      have hmi := mem_of_alistLookup_eq_some hl
      have hmj := mem_of_alistLookup_eq_some hlj
      have hi := htw.1 _ hmi
      have hj2 := htw.1 _ hmj
      simp only [] at hi hj2
      exact hids.1 (by rw [hi.symm.trans hj2]; exact hj)

theorem nodup_table_snd {t : List (Nat × FileMetadata)} (htw : tableWf t) :
    (t.map Prod.snd).Nodup := by
  refine List.Nodup.of_map FileMetadata.fileId ?_
  have he : (t.map Prod.snd).map FileMetadata.fileId = t.map Prod.fst := by
    rw [List.map_map]
    exact List.map_congr_left (fun en hen => htw.1 en hen)
  rw [he]
  exact htw.2

/-- Membership in the indexed extension query, for any state satisfying the
store invariant: exactly the table records whose extension matches. -/
theorem queryExtIndexed_mem {s : FileSystemSimulator} (hinv : StoreInv s)
    (ext : Str) (r : FileMetadata) :
    r ∈ s.queryByExtensionIndexed ext ↔
      (r.fileId, r) ∈ s.fileMetadataMap ∧ r.extension = ext := by
  obtain ⟨htw, _, hidx, _⟩ := hinv
  obtain ⟨hwf, hsound, hcomp⟩ := hidx
  rw [FileSystemSimulator.queryByExtensionIndexed, mem_resolveIds]
  constructor
  · rintro ⟨i, hi, hl⟩
    have hmem := mem_of_alistLookup_eq_some hl
    have hid : r.fileId = i := htw.1 _ hmem
    rw [InvertedIndex.queryByExtension] at hi
    obtain ⟨l, hle, hil⟩ := mem_alistGetD hi
    obtain ⟨en, hen, heni, hene⟩ := hsound _ hle i hil
    obtain ⟨a, b⟩ := en
    simp only [] at heni hene
    subst heni
    have hrq : b = r := table_entry_unique htw.2 hen hmem
    rw [hrq] at hene
    rw [hid]
    exact ⟨hmem, hene⟩
  · rintro ⟨hmem, hext⟩
    refine ⟨r.fileId, ?_, alistLookup_eq_some_of_mem htw.2 hmem⟩
    rw [InvertedIndex.queryByExtension, ← hext]
    exact hcomp _ hmem

/-- The indexed extension query of an invariant-satisfying state has no
duplicate records. -/
theorem queryExtIndexed_nodup {s : FileSystemSimulator} (hinv : StoreInv s)
    (ext : Str) : (s.queryByExtensionIndexed ext).Nodup := by
  obtain ⟨htw, _, hidx, _⟩ := hinv
  refine nodup_resolveIds htw ?_
  rw [InvertedIndex.queryByExtension]
  exact (alistGetD_pairwise hidx.1.1 ext).nodup

/-- Membership in the traversal-based extension query of a state whose tree
agrees with the table (safe runs): the same records. -/
theorem queryExtTraditional_mem {s : FileSystemSimulator} (hinv : StoreInv s)
    (hs : SafeInv s) (ext : Str) (r : FileMetadata) :
    r ∈ s.queryByExtensionTraditional ext ↔
      (r.fileId, r) ∈ s.fileMetadataMap ∧ r.extension = ext := by
  obtain ⟨htw, _⟩ := hinv
  rw [FileSystemSimulator.queryByExtensionTraditional, List.mem_filter,
    hs.mem_iff, List.mem_map]
  constructor
  · rintro ⟨⟨en, hen, rfl⟩, hext⟩
    have hid := htw.1 en hen
    rw [decide_eq_true_eq] at hext
    refine ⟨?_, hext⟩
    obtain ⟨a, b⟩ := en
    simp only [] at hid ⊢
    rw [hid]
    exact hen
  · rintro ⟨hmem, hext⟩
    exact ⟨⟨(r.fileId, r), hmem, rfl⟩, decide_eq_true_eq.mpr hext⟩

theorem queryExtTraditional_nodup {s : FileSystemSimulator} (hinv : StoreInv s)
    (hs : SafeInv s) (ext : Str) : (s.queryByExtensionTraditional ext).Nodup := by
  rw [FileSystemSimulator.queryByExtensionTraditional]
  refine List.Nodup.filter _ ?_
  rw [hs.nodup_iff]
  exact nodup_table_snd hinv.1

/-! ## Unfolding equations for removeFile and identifier allocation -/

theorem removeFile_not_found {s : FileSystemSimulator} {p : Str}
    (h : s.findFileNode p = none) : s.removeFile p = (false, s) := by
  simp only [FileSystemSimulator.removeFile, h]

theorem removeFile_dir {s : FileSystemSimulator} {p : Str} {node : DirectoryNode}
    (h : s.findFileNode p = some node) (hdir : node.isDirectory = true) :
    s.removeFile p = (false, s) := by
  simp only [FileSystemSimulator.removeFile, h, hdir, if_true]

theorem removeFile_found {s : FileSystemSimulator} {p : Str} {node : DirectoryNode}
    {fd : FileMetadata} (hfind : s.findFileNode p = some node)
    (hdir : node.isDirectory = false) (hfd : node.fileData = some fd)
    (hseg : pathSegs p ≠ []) :
    s.removeFile p = (true,
      { root := detachNode s.root (pathSegs p).dropLast node.name
        fileMetadataMap := alistErase s.fileMetadataMap fd.fileId
        invertedIndex := s.invertedIndex.removeFile fd
        nextFileId := s.nextFileId }) := by
  cases hsegc : pathSegs p with
  | nil => exact absurd hsegc hseg
  | cons a as =>
    simp only [FileSystemSimulator.removeFile, hfind, hdir, hfd, hsegc,
      Bool.false_eq_true, if_false]

theorem addFile_success_nextFileId {s : FileSystemSimulator}
    {path fileName extension : Str} {fileSize : Int} {owner createTime : Str}
    (h : (s.addFile path fileName extension fileSize owner createTime).1 = true) :
    (s.addFile path fileName extension fileSize owner createTime).2.nextFileId =
      s.nextFileId + 1 := by
  cases path with
  | nil => cases h
  | cons c rest =>
    by_cases hc : c = '/'
    · subst hc
      rw [addFile_cons_slash]
    · rw [addFile_invalid s (c :: rest) fileName extension fileSize owner createTime
        (Or.inr (by simp [hc]))] at h
      cases h

theorem addFile_nextFileId_le (s : FileSystemSimulator)
    (path fileName extension : Str) (fileSize : Int) (owner createTime : Str) :
    s.nextFileId ≤
      (s.addFile path fileName extension fileSize owner createTime).2.nextFileId := by
  cases path with
  | nil => exact Nat.le_refl _
  | cons c rest =>
    by_cases hc : c = '/'
    · subst hc
      rw [addFile_cons_slash]
      exact Nat.le_succ _
    · rw [addFile_invalid s (c :: rest) fileName extension fileSize owner createTime
        (Or.inr (by simp [hc]))]

theorem removeFile_nextFileId (s : FileSystemSimulator) (p : Str) :
    (s.removeFile p).2.nextFileId = s.nextFileId := by
  cases hfind : s.findFileNode p with
  | none => rw [removeFile_not_found hfind]
  | some node =>
    cases hdir : node.isDirectory with
    | true => rw [removeFile_dir hfind hdir]
    | false =>
      cases hfd : node.fileData with
      | none =>
        cases hseg : pathSegs p <;>
          simp only [FileSystemSimulator.removeFile, hfind, hdir, hfd, hseg,
            Bool.false_eq_true, if_false]
      | some fd =>
        cases hseg : pathSegs p <;>
          simp only [FileSystemSimulator.removeFile, hfind, hdir, hfd, hseg,
            Bool.false_eq_true, if_false]

theorem nextFileId_applyOp (s : FileSystemSimulator) (op : FsOp) :
    s.nextFileId ≤ (applyOp s op).nextFileId := by
  cases op with
  | add p n e sz o t => exact addFile_nextFileId_le s p n e sz o t
  | remove p => exact Nat.le_of_eq (removeFile_nextFileId s p).symm

theorem runIds_cons (s : FileSystemSimulator) (op : FsOp) (rest : List FsOp) :
    runIds s (op :: rest) =
      (match op with
       | .add p n e sz o t => if (s.addFile p n e sz o t).1 then [s.nextFileId] else []
       | .remove _ => []) ++ runIds (applyOp s op) rest := rfl

theorem runIds_lower_bound {ops : List FsOp} {s : FileSystemSimulator} :
    ∀ i ∈ runIds s ops, s.nextFileId ≤ i := by
  induction ops generalizing s with
  | nil => intro i hi; cases hi
  | cons op rest ih =>
    intro i hi
    rw [runIds_cons, List.mem_append] at hi
    rcases hi with hi | hi
    · cases op with
      | add p n e sz o t =>
        by_cases hb : (s.addFile p n e sz o t).1 = true
        · simp only [hb, if_true, List.mem_singleton] at hi
          exact Nat.le_of_eq hi.symm
        · simp only [hb, if_false] at hi
          cases hi
      | remove p => cases hi
    · exact Nat.le_trans (nextFileId_applyOp s op) (ih i hi)

theorem pairwise_runIds (s : FileSystemSimulator) (ops : List FsOp) :
    (runIds s ops).Pairwise (· < ·) := by
  induction ops generalizing s with
  | nil => exact List.Pairwise.nil
  | cons op rest ih =>
    rw [runIds_cons, List.pairwise_append]
    refine ⟨?_, ih _, ?_⟩
    · cases op with
      | add p n e sz o t =>
        by_cases hb : (s.addFile p n e sz o t).1 = true
        · simp only [hb, if_true]
          exact List.pairwise_singleton _ _
        · simp only [hb, if_false]
          exact List.Pairwise.nil
      | remove p => exact List.Pairwise.nil
    · intro x hx y hy
      cases op with
      | add p n e sz o t =>
        by_cases hb : (s.addFile p n e sz o t).1 = true
        · simp only [hb, if_true, List.mem_singleton] at hx
          subst hx
          have h1 := runIds_lower_bound y hy
          rw [show applyOp s (FsOp.add p n e sz o t) =
            (s.addFile p n e sz o t).2 from rfl,
            addFile_success_nextFileId hb] at h1
          omega
        · simp only [hb, if_false] at hx
          cases hx
      | remove p => cases hx

/-! ## Posting-list operation sequences -/

/-- A sequence of `CompressedInvertedList` operations: `(true, i)` inserts
identifier `i`, `(false, i)` removes it. -/
def applyListOps : List Nat → List (Bool × Nat) → List Nat
  | l, [] => l
  | l, (true, i) :: rest => applyListOps (addFileId l i) rest
  | l, (false, i) :: rest => applyListOps (removeFileId l i) rest

theorem pairwise_applyListOps {l : List Nat} (hs : l.Pairwise (· < ·))
    (ops : List (Bool × Nat)) : (applyListOps l ops).Pairwise (· < ·) := by
  induction ops generalizing l with
  | nil => exact hs
  | cons op rest ih =>
    obtain ⟨b, i⟩ := op
    cases b with
    | true => exact ih (pairwise_addFileId hs)
    | false => exact ih (pairwise_removeFileId hs)

/-- The full path `addFile` stores: the directory path, a separator unless
the path already ends in one, then the file name (`mai.cpp:221`). -/
def mkFullPath (path fileName : Str) : Str :=
  path ++ (if path.getLast? = some '/' then [] else ['/']) ++ fileName

theorem mkFullPath_cons_slash (rest fileName : Str) :
    mkFullPath ('/' :: rest) fileName =
      '/' :: (rest ++ (if ('/' :: rest).getLast? = some '/' then [] else ['/']) ++ fileName) := by
  rw [mkFullPath]
  simp

theorem pathSegs_mkFullPath {rest fileName : Str} (hn : fileName ≠ [])
    (hsl : '/' ∉ fileName) :
    pathSegs (mkFullPath ('/' :: rest) fileName) =
      pathSegs ('/' :: rest) ++ [fileName] :=
  pathSegs_fullPath rfl hn hsl

theorem findNodeSegs_after_addFile (s : FileSystemSimulator)
    (rest fileName extension : Str) (fileSize : Int) (owner createTime : Str) :
    findNodeSegs
        (s.addFile ('/' :: rest) fileName extension fileSize owner createTime).2.root
        (pathSegs ('/' :: rest) ++ [fileName]) =
      some (.mk fileName false
        (some ⟨s.nextFileId, fileName, extension, fileSize, owner, createTime,
          mkFullPath ('/' :: rest) fileName⟩) .nil) := by
  rw [addFile_cons_slash]
  exact findNodeSegs_ensureAttach _ _ _ _

theorem findFileNode_after_addFile (s : FileSystemSimulator)
    (rest fileName extension : Str) (fileSize : Int) (owner createTime : Str)
    (hn : fileName ≠ []) (hsl : '/' ∉ fileName) :
    (s.addFile ('/' :: rest) fileName extension fileSize owner
        createTime).2.findFileNode (mkFullPath ('/' :: rest) fileName) =
      some (.mk fileName false
        (some ⟨s.nextFileId, fileName, extension, fileSize, owner, createTime,
          mkFullPath ('/' :: rest) fileName⟩) .nil) := by
  rw [mkFullPath_cons_slash, findFileNode_cons_slash, ← mkFullPath_cons_slash,
    pathSegs_mkFullPath hn hsl]
  exact findNodeSegs_after_addFile s rest fileName extension fileSize owner createTime

theorem removeFile_after_addFile {s : FileSystemSimulator} (hinv : StoreInv s)
    (rest fileName extension : Str) (fileSize : Int) (owner createTime : Str)
    (hn : fileName ≠ []) (hsl : '/' ∉ fileName) :
    ((s.addFile ('/' :: rest) fileName extension fileSize owner
        createTime).2.removeFile (mkFullPath ('/' :: rest) fileName)).1 = true ∧
    ((s.addFile ('/' :: rest) fileName extension fileSize owner
        createTime).2.removeFile (mkFullPath ('/' :: rest) fileName)).2.fileMetadataMap =
      alistErase (s.addFile ('/' :: rest) fileName extension fileSize owner
        createTime).2.fileMetadataMap s.nextFileId ∧
    ((s.addFile ('/' :: rest) fileName extension fileSize owner
        createTime).2.removeFile (mkFullPath ('/' :: rest) fileName)).2.findFileNode
        (mkFullPath ('/' :: rest) fileName) = none ∧
    ((s.addFile ('/' :: rest) fileName extension fileSize owner
        createTime).2.removeFile (mkFullPath ('/' :: rest) fileName)).2.invertedIndex =
      (s.addFile ('/' :: rest) fileName extension fileSize owner
        createTime).2.invertedIndex.removeFile
        ⟨s.nextFileId, fileName, extension, fileSize, owner, createTime,
          mkFullPath ('/' :: rest) fileName⟩ := by
  have hfind := findFileNode_after_addFile s rest fileName extension fileSize owner
    createTime hn hsl
  have hsegs := @pathSegs_mkFullPath rest fileName hn hsl
  have hsegne : pathSegs (mkFullPath ('/' :: rest) fileName) ≠ [] := by
    rw [hsegs]
    simp
  have hrm := removeFile_found hfind rfl rfl hsegne
  have hinv1 := storeInv_addFile s ('/' :: rest) fileName extension fileSize owner
    createTime hinv
  have hwf1 : treeWf (s.addFile ('/' :: rest) fileName extension fileSize owner
      createTime).2.root = true := hinv1.2.2.2.2.2.2.2.1
  refine ⟨by rw [hrm], by rw [hrm], ?_, by rw [hrm]⟩
  rw [hrm]
  rw [mkFullPath_cons_slash, findFileNode_cons_slash, ← mkFullPath_cons_slash,
    pathSegs_mkFullPath hn hsl]
  have hdrop : (pathSegs ('/' :: rest) ++ [fileName]).dropLast =
      pathSegs ('/' :: rest) := by
    simp
  rw [hdrop, DirectoryNode.name_mk]
  exact findNodeSegs_detach hwf1
    (findNodeSegs_after_addFile s rest fileName extension fileSize owner createTime)

theorem not_mem_idxRemove_all {K : Type} [DecidableEq K]
    {m : List (K × List Nat)} {k : K} {i : Nat}
    (hwfm : idxWf m) (honly : ∀ e ∈ m, i ∈ e.2 → e.1 = k) :
    ∀ e ∈ idxRemove m k i, i ∉ e.2 := by
  obtain ⟨hsort, _, hn⟩ := hwfm
  intro e he hi
  obtain ⟨k', l'⟩ := e
  have hn2 : ((idxRemove m k i).map Prod.fst).Nodup :=
    List.Nodup.sublist (idxRemove_keys_sublist m k i) hn
  have hg : alistGetD (idxRemove m k i) k' [] = l' := alistGetD_of_mem hn2 he
  rw [alistGetD_idxRemove hn] at hg
  by_cases hk : k' = k
  · rw [if_pos hk] at hg
    rw [← hg] at hi
    have h2 := (mem_removeFileId (alistGetD_pairwise hsort k)).mp hi
    exact h2.2 rfl
  · rw [if_neg hk] at hg
    rw [← hg] at hi
    obtain ⟨l, hl, hil⟩ := mem_alistGetD hi
    exact hk (honly (k', l) hl hil)

/-! ## Claim theorems -/

theorem idxOk_exact {K : Type} [DecidableEq K] {m : List (K × List Nat)}
    {attr : FileMetadata → K} {t : List (Nat × FileMetadata)}
    (hok : idxOk m attr t) (htw : tableWf t)
    {id : Nat} {r : FileMetadata} (hmem : (id, r) ∈ t) :
    id ∈ alistGetD m (attr r) [] ∧ ∀ e ∈ m, id ∈ e.2 → e.1 = attr r := by
  refine ⟨hok.2.2 (id, r) hmem, ?_⟩
  intro e he hid
  obtain ⟨en, hen, heni, hena⟩ := hok.2.1 e he id hid
  obtain ⟨a, b⟩ := en
  simp only [] at heni hena
  subst heni
  have hb : b = r := table_entry_unique htw.2 hen hmem
  rw [hb] at hena
  exact hena.symm

/-- Claim C2: after any sequence of add and remove operations, every record of
the flat table has its identifier in the posting list keyed by each of its own
four attribute values, in no other posting list of those indexes, and no index
keeps an empty posting list. -/
theorem index_completeness_exact (ops : List FsOp) (id : Nat) (r : FileMetadata)
    (hmem : (id, r) ∈ (reach ops).fileMetadataMap) :
    (id ∈ alistGetD (reach ops).invertedIndex.extensionIndex r.extension [] ∧
      ∀ e ∈ (reach ops).invertedIndex.extensionIndex, id ∈ e.2 → e.1 = r.extension) ∧
    (id ∈ alistGetD (reach ops).invertedIndex.sizeIndex r.fileSize [] ∧
      ∀ e ∈ (reach ops).invertedIndex.sizeIndex, id ∈ e.2 → e.1 = r.fileSize) ∧
    (id ∈ alistGetD (reach ops).invertedIndex.ownerIndex r.owner [] ∧
      ∀ e ∈ (reach ops).invertedIndex.ownerIndex, id ∈ e.2 → e.1 = r.owner) ∧
    (id ∈ alistGetD (reach ops).invertedIndex.timeIndex r.createTime [] ∧
      ∀ e ∈ (reach ops).invertedIndex.timeIndex, id ∈ e.2 → e.1 = r.createTime) ∧
    (∀ e ∈ (reach ops).invertedIndex.extensionIndex, e.2 ≠ []) ∧
    (∀ e ∈ (reach ops).invertedIndex.sizeIndex, e.2 ≠ []) ∧
    (∀ e ∈ (reach ops).invertedIndex.ownerIndex, e.2 ≠ []) ∧
    (∀ e ∈ (reach ops).invertedIndex.timeIndex, e.2 ≠ []) := by
  have hinv := storeInv_reach ops
  obtain ⟨htw, _, hext, hsize, howner, htime, _⟩ := hinv
  exact ⟨idxOk_exact hext htw hmem, idxOk_exact hsize htw hmem,
    idxOk_exact howner htw hmem, idxOk_exact htime htw hmem,
    hext.1.2.1, hsize.1.2.1, howner.1.2.1, htime.1.2.1⟩

theorem index_completeness_exact_witness :
    (1, (⟨1, ['f'], ['.', 't'], 5, ['o'], ['t'], ['/', 'a', '/', 'f']⟩ : FileMetadata)) ∈
      (reach [FsOp.add ['/', 'a'] ['f'] ['.', 't'] 5 ['o'] ['t']]).fileMetadataMap ∧
    1 ∈ alistGetD
      (reach [FsOp.add ['/', 'a'] ['f'] ['.', 't'] 5 ['o'] ['t']]).invertedIndex.extensionIndex
      ['.', 't'] [] :=
  ⟨by decide,
    (index_completeness_exact [FsOp.add ['/', 'a'] ['f'] ['.', 't'] 5 ['o'] ['t']] 1
      ⟨1, ['f'], ['.', 't'], 5, ['o'], ['t'], ['/', 'a', '/', 'f']⟩ (by decide)).1.1⟩

/-- Claim C4: for every reachable store and bounds `minS ≤ maxS`, the
size-range scan succeeds and returns exactly the identifiers of table records
whose size lies in the closed interval, as a strictly sorted (hence
duplicate-free) sequence. -/
theorem size_range_query_exact (ops : List FsOp) (minS maxS : Int)
    (hmm : minS ≤ maxS) :
    ∃ ids, (reach ops).invertedIndex.queryBySizeRange minS maxS = some ids ∧
      ids.Pairwise (· < ·) ∧
      ∀ i, i ∈ ids ↔ ∃ r, (i, r) ∈ (reach ops).fileMetadataMap ∧
        minS ≤ r.fileSize ∧ r.fileSize ≤ maxS := by
  have hinv := storeInv_reach ops
  obtain ⟨htw, _, _, hsize, _, _, hskeys, _⟩ := hinv
  obtain ⟨ids, hq, hsort, hiff⟩ := queryBySizeRange_spec (reach ops).invertedIndex
    hskeys hmm
  refine ⟨ids, hq, hsort, ?_⟩
  intro i
  rw [hiff]
  constructor
  · rintro ⟨e, he, h1, h2, hi⟩
    obtain ⟨en, hen, heni, hens⟩ := hsize.2.1 e he i hi
    obtain ⟨a, b⟩ := en
    simp only [] at heni hens
    subst heni
    rw [← hens] at h1 h2
    exact ⟨b, hen, h1, h2⟩
  · rintro ⟨r, hr, h1, h2⟩
    have hc := hsize.2.2 (i, r) hr
    obtain ⟨l, hlm, hil⟩ := mem_alistGetD hc
    exact ⟨(r.fileSize, l), hlm, h1, h2, hil⟩

theorem size_range_query_exact_witness :
    (0 : Int) ≤ 10 ∧
    (∃ ids, (reach [FsOp.add ['/', 'a'] ['f'] ['.', 't'] 5 ['o'] ['t']]).invertedIndex.queryBySizeRange
        0 10 = some ids ∧
      ids.Pairwise (· < ·) ∧
      ∀ i, i ∈ ids ↔ ∃ r,
        (i, r) ∈ (reach [FsOp.add ['/', 'a'] ['f'] ['.', 't'] 5 ['o'] ['t']]).fileMetadataMap ∧
        (0 : Int) ≤ r.fileSize ∧ r.fileSize ≤ 10) :=
  ⟨by decide,
    size_range_query_exact [FsOp.add ['/', 'a'] ['f'] ['.', 't'] 5 ['o'] ['t']] 0 10
      (by decide)⟩

/-- Claim C5: the size-range scan is not well defined for every pair of
bounds.  With one registered file of size 5 and the empty range
`minSize = 10 > maxSize = 1`, `lower_bound(minSize)` starts at `end()` while
`upper_bound(maxSize)` stands at `begin()`, so the loop walks past the end of
the size map instead of returning an empty result; the embedding marks that
undefined scan as `none`. -/
theorem size_range_scan_walks_past_end :
    (reach [FsOp.add ['/', 'a'] ['f'] ['.', 't'] 5 ['o'] ['t']]).queryBySizeRangeIndexed
      10 1 = none := by decide

/-- Claim C8: the identifiers handed out by the successful adds of any
operation sequence, from any starting state, are strictly increasing, hence
each is assigned at most once and never reused after a removal. -/
theorem file_ids_strictly_increasing (s : FileSystemSimulator) (ops : List FsOp) :
    (runIds s ops).Pairwise (· < ·) ∧ (runIds s ops).Nodup :=
  ⟨pairwise_runIds s ops, (pairwise_runIds s ops).nodup⟩

/-- Claim C9: a posting list starting empty stays strictly increasing (hence
duplicate-free) under any sequence of inserts and removes, inserting a present
identifier is a no-op, and removing an absent identifier is a no-op. -/
theorem posting_list_sorted_unique (ops : List (Bool × Nat)) :
    (applyListOps [] ops).Pairwise (· < ·) ∧
    (applyListOps [] ops).Nodup ∧
    (∀ l i, l.Pairwise (· < ·) → i ∈ l → addFileId l i = l) ∧
    (∀ l i, l.Pairwise (· < ·) → i ∉ l → removeFileId l i = l) :=
  ⟨pairwise_applyListOps List.Pairwise.nil ops,
    (pairwise_applyListOps List.Pairwise.nil ops).nodup,
    fun _ _ hs h => addFileId_of_mem hs h,
    fun _ _ hs h => removeFileId_of_not_mem hs h⟩

/-- Claim C7: `addFile` fails exactly when the path is empty or does not start
with `'/'`, leaving the store unchanged; the root path resolves to the root
node directly; the segment walk never sees an empty segment, and duplicate
delimiters yield the same segment list as a single one. -/
theorem add_path_validation (s : FileSystemSimulator) (path fileName extension : Str)
    (fileSize : Int) (owner createTime : Str) :
    ((s.addFile path fileName extension fileSize owner createTime).1 = false ↔
      path = [] ∨ path.head? ≠ some '/') ∧
    ((path = [] ∨ path.head? ≠ some '/') →
      s.addFile path fileName extension fileSize owner createTime = (false, s)) ∧
    s.findFileNode ['/'] = some s.root ∧
    [] ∉ pathSegs path ∧
    (∀ a b : Str, pathSegs ('/' :: (a ++ '/' :: '/' :: b)) =
      pathSegs ('/' :: (a ++ '/' :: b))) := by
  refine ⟨?_, ?_, ?_, ?_, ?_⟩
  · constructor
    · intro hf
      cases path with
      | nil => exact Or.inl rfl
      | cons c rest =>
        by_cases hc : c = '/'
        · subst hc
          rw [addFile_cons_slash] at hf
          cases hf
        · exact Or.inr (by simp [hc])
    · intro h
      rw [addFile_invalid s path fileName extension fileSize owner createTime h]
  · intro h
    exact addFile_invalid s path fileName extension fileSize owner createTime h
  · rw [FileSystemSimulator.findFileNode, if_pos rfl]
    rfl
  · intro h
    rw [pathSegs, List.mem_filter] at h
    simp at h
  · intro a b
    rw [pathSegs_cons, pathSegs_cons, filter_splitSegs_dup_slash]

/-- Claim C1 (amended): for a sequence of adds and removes in which no add
overwrites an existing node and no remove drops a node with children, the
traversal-based and the index-based extension queries return the same
identifier multiset.  Without that amendment the claim fails: an add over an
existing name orphans the earlier record, which the indexed query still
returns (see the counterexample). -/
theorem extension_query_baseline_equiv (ops : List FsOp)
    (hsafe : safeRunFrom initSimulator ops = true) (ext : Str) :
    (((reach ops).queryByExtensionTraditional ext).map FileMetadata.fileId).Perm
      (((reach ops).queryByExtensionIndexed ext).map FileMetadata.fileId) := by
  have hinv := storeInv_reach ops
  have hs := safeInv_reach ops hsafe
  refine List.Perm.map _ ?_
  refine (List.perm_ext_iff_of_nodup (queryExtTraditional_nodup hinv hs ext)
    (queryExtIndexed_nodup hinv ext)).mpr ?_
  intro r
  rw [queryExtTraditional_mem hinv hs ext r, queryExtIndexed_mem hinv ext r]

theorem extension_query_baseline_equiv_witness :
    safeRunFrom initSimulator
      [FsOp.add ['/', 'a'] ['f'] ['.', 't'] 5 ['o'] ['t'],
       FsOp.remove ['/', 'a', '/', 'f']] = true ∧
    (((reach [FsOp.add ['/', 'a'] ['f'] ['.', 't'] 5 ['o'] ['t'],
        FsOp.remove ['/', 'a', '/', 'f']]).queryByExtensionTraditional
          ['.', 't']).map FileMetadata.fileId).Perm
      (((reach [FsOp.add ['/', 'a'] ['f'] ['.', 't'] 5 ['o'] ['t'],
        FsOp.remove ['/', 'a', '/', 'f']]).queryByExtensionIndexed
          ['.', 't']).map FileMetadata.fileId) :=
  ⟨by decide,
    extension_query_baseline_equiv
      [FsOp.add ['/', 'a'] ['f'] ['.', 't'] 5 ['o'] ['t'],
       FsOp.remove ['/', 'a', '/', 'f']] (by decide) ['.', 't']⟩

theorem extension_query_baseline_equiv_cex :
    (((reach [FsOp.add ['/', 'd'] ['f'] ['.', 't'] 1 ['o'] ['t'],
        FsOp.add ['/', 'd'] ['f'] ['.', 't'] 2 ['o'] ['t']]).queryByExtensionTraditional
          ['.', 't']).map FileMetadata.fileId = [2]) ∧
    (((reach [FsOp.add ['/', 'd'] ['f'] ['.', 't'] 1 ['o'] ['t'],
        FsOp.add ['/', 'd'] ['f'] ['.', 't'] 2 ['o'] ['t']]).queryByExtensionIndexed
          ['.', 't']).map FileMetadata.fileId = [1, 2]) ∧
    ¬ (((reach [FsOp.add ['/', 'd'] ['f'] ['.', 't'] 1 ['o'] ['t'],
        FsOp.add ['/', 'd'] ['f'] ['.', 't'] 2 ['o'] ['t']]).queryByExtensionTraditional
          ['.', 't']).map FileMetadata.fileId).Perm
      (((reach [FsOp.add ['/', 'd'] ['f'] ['.', 't'] 1 ['o'] ['t'],
        FsOp.add ['/', 'd'] ['f'] ['.', 't'] 2 ['o'] ['t']]).queryByExtensionIndexed
          ['.', 't']).map FileMetadata.fileId) := by
  exact ⟨by decide, by decide, by decide⟩

/-- Claim C3 (amended): for a store satisfying the invariant, a valid
directory path and a file name that is nonempty and free of the separator,
the add succeeds, an immediate indexed query by the new file's extension
returns the new identifier, and after removing the stored full path the same
query no longer returns it.  Without the restriction on the file name the
round trip fails: a name containing `'/'` makes the stored full path resolve
to a different node (see the counterexample). -/
theorem add_query_remove_round_trip {s : FileSystemSimulator} (hinv : StoreInv s)
    (rest fileName extension : Str) (fileSize : Int) (owner createTime : Str)
    (hn : fileName ≠ []) (hsl : '/' ∉ fileName) :
    (s.addFile ('/' :: rest) fileName extension fileSize owner createTime).1 = true ∧
    s.nextFileId ∈ ((s.addFile ('/' :: rest) fileName extension fileSize owner
      createTime).2.queryByExtensionIndexed extension).map FileMetadata.fileId ∧
    s.nextFileId ∉ (((s.addFile ('/' :: rest) fileName extension fileSize owner
      createTime).2.removeFile (mkFullPath ('/' :: rest) fileName)).2.queryByExtensionIndexed
        extension).map FileMetadata.fileId := by
  have hinv1 := storeInv_addFile s ('/' :: rest) fileName extension fileSize owner
    createTime hinv
  refine ⟨by rw [addFile_cons_slash], ?_, ?_⟩
  · rw [List.mem_map]
    refine ⟨⟨s.nextFileId, fileName, extension, fileSize, owner, createTime,
      mkFullPath ('/' :: rest) fileName⟩, ?_, rfl⟩
    rw [queryExtIndexed_mem hinv1]
    refine ⟨?_, rfl⟩
    rw [addFile_cons_slash]
    exact alistSet_mem_self
  · obtain ⟨hr1, hr2, hr3, hr4⟩ := removeFile_after_addFile hinv rest fileName extension
      fileSize owner createTime hn hsl
    intro hmem
    rw [List.mem_map] at hmem
    obtain ⟨r, hr, hid⟩ := hmem
    have hinv2 := storeInv_removeFile
      (s.addFile ('/' :: rest) fileName extension fileSize owner createTime).2
      (mkFullPath ('/' :: rest) fileName) hinv1
    rw [queryExtIndexed_mem hinv2] at hr
    obtain ⟨htab, _⟩ := hr
    rw [hid] at htab
    rw [hr2] at htab
    exact not_mem_keys_alistErase hinv1.1.2 (List.mem_map_of_mem Prod.fst htab)

theorem add_query_remove_round_trip_witness :
    StoreInv initSimulator ∧ (['f'] : Str) ≠ [] ∧ '/' ∉ (['f'] : Str) ∧
    (initSimulator.addFile ('/' :: ['a']) ['f'] ['.', 't'] 5 ['o'] ['t']).1 = true ∧
    1 ∈ ((initSimulator.addFile ('/' :: ['a']) ['f'] ['.', 't'] 5 ['o']
      ['t']).2.queryByExtensionIndexed ['.', 't']).map FileMetadata.fileId ∧
    1 ∉ (((initSimulator.addFile ('/' :: ['a']) ['f'] ['.', 't'] 5 ['o']
      ['t']).2.removeFile (mkFullPath ('/' :: ['a']) ['f'])).2.queryByExtensionIndexed
        ['.', 't']).map FileMetadata.fileId :=
  ⟨storeInv_init, by decide, by decide,
    (add_query_remove_round_trip storeInv_init ['a'] ['f'] ['.', 't'] 5 ['o'] ['t']
      (by decide) (by decide)).1,
    (add_query_remove_round_trip storeInv_init ['a'] ['f'] ['.', 't'] 5 ['o'] ['t']
      (by decide) (by decide)).2.1,
    (add_query_remove_round_trip storeInv_init ['a'] ['f'] ['.', 't'] 5 ['o'] ['t']
      (by decide) (by decide)).2.2⟩

theorem add_query_remove_round_trip_cex :
    (initSimulator.addFile ['/'] ['a', '/', 'b'] ['.', 't'] 5 ['o'] ['t']).1 = true ∧
    1 ∈ ((initSimulator.addFile ['/'] ['a', '/', 'b'] ['.', 't'] 5 ['o']
      ['t']).2.queryByExtensionIndexed ['.', 't']).map FileMetadata.fileId ∧
    (((initSimulator.addFile ['/'] ['a', '/', 'b'] ['.', 't'] 5 ['o']
      ['t']).2.removeFile ['/', 'a', '/', 'b']).1 = false ∧
    1 ∈ (((initSimulator.addFile ['/'] ['a', '/', 'b'] ['.', 't'] 5 ['o']
      ['t']).2.removeFile ['/', 'a', '/', 'b']).2.queryByExtensionIndexed
        ['.', 't']).map FileMetadata.fileId) := by
  exact ⟨by decide, by decide, by decide, by decide⟩

/-- Claim C6: remove fails on an unresolved path and on a directory node,
leaving the store unchanged; after a successful add of a well-formed file
name, removing the stored full path succeeds, erases the identifier from the
flat table, deregisters it from every posting list of all four attribute
indexes, and a second remove of the same path returns `false` and leaves the
store unchanged. -/
theorem remove_file_semantics {s : FileSystemSimulator} (hinv : StoreInv s)
    (p : Str) (rest fileName extension : Str) (fileSize : Int)
    (owner createTime : Str) (hn : fileName ≠ []) (hsl : '/' ∉ fileName) :
    (s.findFileNode p = none → s.removeFile p = (false, s)) ∧
    (∀ node, s.findFileNode p = some node → node.isDirectory = true →
      s.removeFile p = (false, s)) ∧
    ((s.addFile ('/' :: rest) fileName extension fileSize owner
      createTime).2.removeFile (mkFullPath ('/' :: rest) fileName)).1 = true ∧
    s.nextFileId ∉ (((s.addFile ('/' :: rest) fileName extension fileSize owner
      createTime).2.removeFile (mkFullPath ('/' :: rest) fileName)).2.fileMetadataMap.map
        Prod.fst) ∧
    ((s.addFile ('/' :: rest) fileName extension fileSize owner
        createTime).2.removeFile (mkFullPath ('/' :: rest) fileName)).2.removeFile
        (mkFullPath ('/' :: rest) fileName) =
      (false, ((s.addFile ('/' :: rest) fileName extension fileSize owner
        createTime).2.removeFile (mkFullPath ('/' :: rest) fileName)).2) ∧
    (∀ e ∈ (((s.addFile ('/' :: rest) fileName extension fileSize owner
      createTime).2.removeFile
        (mkFullPath ('/' :: rest) fileName)).2.invertedIndex.extensionIndex),
      s.nextFileId ∉ e.2) ∧
    (∀ e ∈ (((s.addFile ('/' :: rest) fileName extension fileSize owner
      createTime).2.removeFile
        (mkFullPath ('/' :: rest) fileName)).2.invertedIndex.sizeIndex),
      s.nextFileId ∉ e.2) ∧
    (∀ e ∈ (((s.addFile ('/' :: rest) fileName extension fileSize owner
      createTime).2.removeFile
        (mkFullPath ('/' :: rest) fileName)).2.invertedIndex.ownerIndex),
      s.nextFileId ∉ e.2) ∧
    (∀ e ∈ (((s.addFile ('/' :: rest) fileName extension fileSize owner
      createTime).2.removeFile
        (mkFullPath ('/' :: rest) fileName)).2.invertedIndex.timeIndex),
      s.nextFileId ∉ e.2) := by
  obtain ⟨hr1, hr2, hr3, hr4⟩ := removeFile_after_addFile hinv rest fileName extension
    fileSize owner createTime hn hsl
  have hinv1 := storeInv_addFile s ('/' :: rest) fileName extension fileSize owner
    createTime hinv
  have htab1 : (s.nextFileId,
      (⟨s.nextFileId, fileName, extension, fileSize, owner, createTime,
        mkFullPath ('/' :: rest) fileName⟩ : FileMetadata)) ∈
      (s.addFile ('/' :: rest) fileName extension fileSize owner
        createTime).2.fileMetadataMap := by
    rw [addFile_cons_slash]
    exact alistSet_mem_self
  refine ⟨fun h => removeFile_not_found h,
    fun node h hdir => removeFile_dir h hdir, hr1, ?_, removeFile_not_found hr3,
    ?_, ?_, ?_, ?_⟩
  · rw [hr2]
    exact not_mem_keys_alistErase hinv1.1.2
  · rw [hr4]
    exact not_mem_idxRemove_all hinv1.2.2.1.1
      (fun e he hi => (idxOk_exact hinv1.2.2.1 hinv1.1 htab1).2 e he hi)
  · rw [hr4]
    exact not_mem_idxRemove_all hinv1.2.2.2.1.1
      (fun e he hi => (idxOk_exact hinv1.2.2.2.1 hinv1.1 htab1).2 e he hi)
  · rw [hr4]
    exact not_mem_idxRemove_all hinv1.2.2.2.2.1.1
      (fun e he hi => (idxOk_exact hinv1.2.2.2.2.1 hinv1.1 htab1).2 e he hi)
  · rw [hr4]
    exact not_mem_idxRemove_all hinv1.2.2.2.2.2.1.1
      (fun e he hi => (idxOk_exact hinv1.2.2.2.2.2.1 hinv1.1 htab1).2 e he hi)

theorem remove_file_semantics_witness :
    StoreInv initSimulator ∧ (['f'] : Str) ≠ [] ∧ '/' ∉ (['f'] : Str) ∧
    ((initSimulator.addFile ('/' :: ['a']) ['f'] ['.', 't'] 5 ['o']
      ['t']).2.removeFile (mkFullPath ('/' :: ['a']) ['f'])).1 = true ∧
    (((initSimulator.addFile ('/' :: ['a']) ['f'] ['.', 't'] 5 ['o']
        ['t']).2.removeFile (mkFullPath ('/' :: ['a']) ['f'])).2.removeFile
        (mkFullPath ('/' :: ['a']) ['f']) =
      (false, ((initSimulator.addFile ('/' :: ['a']) ['f'] ['.', 't'] 5 ['o']
        ['t']).2.removeFile (mkFullPath ('/' :: ['a']) ['f'])).2)) ∧
    (∀ e ∈ (((initSimulator.addFile ('/' :: ['a']) ['f'] ['.', 't'] 5 ['o']
      ['t']).2.removeFile
        (mkFullPath ('/' :: ['a']) ['f'])).2.invertedIndex.extensionIndex),
      (1 : Nat) ∉ e.2) :=
  ⟨storeInv_init, by decide, by decide,
    (remove_file_semantics storeInv_init ['/'] ['a'] ['f'] ['.', 't'] 5 ['o'] ['t']
      (by decide) (by decide)).2.2.1,
    (remove_file_semantics storeInv_init ['/'] ['a'] ['f'] ['.', 't'] 5 ['o'] ['t']
      (by decide) (by decide)).2.2.2.2.1,
    (remove_file_semantics storeInv_init ['/'] ['a'] ['f'] ['.', 't'] 5 ['o'] ['t']
      (by decide) (by decide)).2.2.2.2.2.1⟩

/-- Claim C10: when a file node already exists at the target path and name, a
second successful add replaces the namespace node but orphans the earlier
record: the earlier identifier stays in the flat table and in the posting
lists of all four of its attribute values, the indexed extension query still
returns the earlier record, `getTotalFiles` counts both records, and the
namespace walk now reaches only the newer file — the earlier record is no
longer reachable from the root. -/
theorem duplicate_add_orphans_record {s : FileSystemSimulator} (hinv : StoreInv s)
    (rest n extension : Str) (fileSize : Int) (owner createTime : Str)
    {old : DirectoryNode} {fd0 : FileMetadata}
    (hfind : findNodeSegs s.root (pathSegs ('/' :: rest) ++ [n]) = some old)
    (hdir : old.isDirectory = false) (hfd : old.fileData = some fd0) :
    (s.addFile ('/' :: rest) n extension fileSize owner createTime).1 = true ∧
    (fd0.fileId, fd0) ∈
      (s.addFile ('/' :: rest) n extension fileSize owner createTime).2.fileMetadataMap ∧
    fd0.fileId ∈ (s.addFile ('/' :: rest) n extension fileSize owner
      createTime).2.invertedIndex.queryByExtension fd0.extension ∧
    fd0.fileId ∈ alistGetD (s.addFile ('/' :: rest) n extension fileSize owner
      createTime).2.invertedIndex.sizeIndex fd0.fileSize [] ∧
    fd0.fileId ∈ (s.addFile ('/' :: rest) n extension fileSize owner
      createTime).2.invertedIndex.queryByOwner fd0.owner ∧
    fd0.fileId ∈ (s.addFile ('/' :: rest) n extension fileSize owner
      createTime).2.invertedIndex.queryByTime fd0.createTime ∧
    fd0 ∈ (s.addFile ('/' :: rest) n extension fileSize owner
      createTime).2.queryByExtensionIndexed fd0.extension ∧
    (s.addFile ('/' :: rest) n extension fileSize owner
      createTime).2.getTotalFiles = s.getTotalFiles + 1 ∧
    findNodeSegs (s.addFile ('/' :: rest) n extension fileSize owner
        createTime).2.root (pathSegs ('/' :: rest) ++ [n]) =
      some (.mk n false (some ⟨s.nextFileId, n, extension, fileSize, owner,
        createTime, mkFullPath ('/' :: rest) n⟩) .nil) ∧
    fd0.fileId ∉
      (collectFiles (s.addFile ('/' :: rest) n extension fileSize owner
        createTime).2.root).map FileMetadata.fileId := by
  have hinv1 := storeInv_addFile s ('/' :: rest) n extension fileSize owner
    createTime hinv
  obtain ⟨htw, hfr, hext, hsize, howner, htime, hskeys, hwf, hrootd, hts, hnodup⟩ := hinv
  have htab0 : (fd0.fileId, fd0) ∈ s.fileMetadataMap :=
    hts fd0 (mem_collect_of_findNodeSegs hfind (mem_collect_self hdir hfd))
  have hlt : fd0.fileId < s.nextFileId := hfr _ htab0
  have hne : fd0.fileId ≠ s.nextFileId := Nat.ne_of_lt hlt
  have hfresh : s.nextFileId ∉ s.fileMetadataMap.map Prod.fst := by
    intro hmem
    obtain ⟨en, hen, heq⟩ := List.mem_map.mp hmem
    have := hfr en hen
    omega
  have htab1 : (fd0.fileId, fd0) ∈
      (s.addFile ('/' :: rest) n extension fileSize owner createTime).2.fileMetadataMap := by
    rw [addFile_cons_slash]
    exact mem_alistSet_of_ne htab0 hne
  refine ⟨by rw [addFile_cons_slash], htab1, ?_, ?_, ?_, ?_, ?_, ?_, ?_, ?_⟩
  · rw [addFile_cons_slash]
    show fd0.fileId ∈ alistGetD
      (umapAdd s.invertedIndex.extensionIndex extension s.nextFileId) fd0.extension []
    rw [alistGetD_umapAdd]
    have hbase : fd0.fileId ∈ alistGetD s.invertedIndex.extensionIndex fd0.extension [] :=
      hext.2.2 (fd0.fileId, fd0) htab0
    by_cases he : fd0.extension = extension
    · rw [if_pos he]
      exact mem_addFileId.mpr (Or.inr (he ▸ hbase))
    · rw [if_neg he]
      exact hbase
  · rw [addFile_cons_slash]
    show fd0.fileId ∈ alistGetD
      (sizeAdd s.invertedIndex.sizeIndex fileSize s.nextFileId) fd0.fileSize []
    rw [alistGetD_sizeAdd hskeys]
    have hbase : fd0.fileId ∈ alistGetD s.invertedIndex.sizeIndex fd0.fileSize [] :=
      hsize.2.2 (fd0.fileId, fd0) htab0
    by_cases he : fd0.fileSize = fileSize
    · rw [if_pos he]
      exact mem_addFileId.mpr (Or.inr (he ▸ hbase))
    · rw [if_neg he]
      exact hbase
  · rw [addFile_cons_slash]
    show fd0.fileId ∈ alistGetD
      (umapAdd s.invertedIndex.ownerIndex owner s.nextFileId) fd0.owner []
    rw [alistGetD_umapAdd]
    have hbase : fd0.fileId ∈ alistGetD s.invertedIndex.ownerIndex fd0.owner [] :=
      howner.2.2 (fd0.fileId, fd0) htab0
    by_cases he : fd0.owner = owner
    · rw [if_pos he]
      exact mem_addFileId.mpr (Or.inr (he ▸ hbase))
    · rw [if_neg he]
      exact hbase
  · rw [addFile_cons_slash]
    show fd0.fileId ∈ alistGetD
      (umapAdd s.invertedIndex.timeIndex createTime s.nextFileId) fd0.createTime []
    rw [alistGetD_umapAdd]
    have hbase : fd0.fileId ∈ alistGetD s.invertedIndex.timeIndex fd0.createTime [] :=
      htime.2.2 (fd0.fileId, fd0) htab0
    by_cases he : fd0.createTime = createTime
    · rw [if_pos he]
      exact mem_addFileId.mpr (Or.inr (he ▸ hbase))
    · rw [if_neg he]
      exact hbase
  · exact (queryExtIndexed_mem hinv1 fd0.extension fd0).mpr ⟨htab1, rfl⟩
  · rw [addFile_cons_slash]
    show (alistSet s.fileMetadataMap s.nextFileId _).length = s.fileMetadataMap.length + 1
    rw [alistSet_of_not_mem_keys hfresh, List.length_append]
    rfl
  · exact findNodeSegs_after_addFile s rest n extension fileSize owner createTime
  · rw [addFile_cons_slash]
    rw [show (('/' :: rest) ++
      (if ('/' :: rest).getLast? = some '/' then [] else ['/']) ++ n : Str) =
        mkFullPath ('/' :: rest) n from rfl]
    show fd0.fileId ∉
      (collectFiles (ensureAttach s.root (pathSegs ('/' :: rest)) n
        (.mk n false (some ⟨s.nextFileId, n, extension, fileSize, owner,
          createTime, mkFullPath ('/' :: rest) n⟩) .nil))).map FileMetadata.fileId
    have hperm := @ensure_perm_some _ _ _ _
      (.mk n false (some ⟨s.nextFileId, n, extension, fileSize, owner,
        createTime, mkFullPath ('/' :: rest) n⟩) .nil) hfind
    have hmap := (hperm.map FileMetadata.fileId).count_eq fd0.fileId
    rw [List.map_append, List.map_append, List.count_append, List.count_append] at hmap
    have hO : 1 ≤ ((collectFiles old).map FileMetadata.fileId).count fd0.fileId :=
      List.one_le_count_iff.mpr
        (List.mem_map_of_mem _ (mem_collect_self hdir hfd))
    have hR : ((collectFiles s.root).map FileMetadata.fileId).count fd0.fileId ≤ 1 :=
      List.nodup_iff_count_le_one.mp hnodup _
    have hN : ((collectFiles (DirectoryNode.mk n false
        (some ⟨s.nextFileId, n, extension, fileSize, owner, createTime,
          mkFullPath ('/' :: rest) n⟩) .nil)).map FileMetadata.fileId).count
          fd0.fileId = 0 := by
      have hcoll : collectFiles (DirectoryNode.mk n false
          (some ⟨s.nextFileId, n, extension, fileSize, owner, createTime,
            mkFullPath ('/' :: rest) n⟩) .nil) =
          [⟨s.nextFileId, n, extension, fileSize, owner, createTime,
            mkFullPath ('/' :: rest) n⟩] := rfl
      rw [hcoll, List.count_eq_zero]
      intro hmem
      simp at hmem
      exact hne hmem
    intro hmem2
    have hA := List.one_le_count_iff.mpr hmem2
    omega

theorem duplicate_add_orphans_record_witness :
    findNodeSegs (reach [FsOp.add ['/', 'd'] ['f'] ['.', 't'] 1 ['o'] ['t']]).root
        (pathSegs ('/' :: ['d']) ++ [['f']]) =
      some (.mk ['f'] false (some ⟨1, ['f'], ['.', 't'], 1, ['o'], ['t'],
        ['/', 'd', '/', 'f']⟩) .nil) ∧
    ((1 : Nat), (⟨1, ['f'], ['.', 't'], 1, ['o'], ['t'],
        ['/', 'd', '/', 'f']⟩ : FileMetadata)) ∈
      ((reach [FsOp.add ['/', 'd'] ['f'] ['.', 't'] 1 ['o'] ['t']]).addFile
        ('/' :: ['d']) ['f'] ['.', 't'] 2 ['o'] ['t']).2.fileMetadataMap :=
  ⟨by rfl,
    (duplicate_add_orphans_record
      (storeInv_reach [FsOp.add ['/', 'd'] ['f'] ['.', 't'] 1 ['o'] ['t']])
      ['d'] ['f'] ['.', 't'] 2 ['o'] ['t'] (by rfl) (by rfl) (by rfl)).2.1⟩
